import Mathlib

/-!
Shallow embedding of the wikilon runtime value engine (src/wikrt-old/wikrt.c)
and its parser (src/wikilon-runtime/wikrt_parse.c), with theorems settling the
specification claims about integer division, parser atomicity, error latching,
substructural enforcement, sum round trips, product involutions, copy size
estimation, block composition, overflow behaviour, and integer comparison.

The in-arena tagged representation is embedded as an inductive tree `Wval`:
pairs and shallow sums (`P`, `PL`, `PR`, `U`, `UL`, `UR`), small integers (`I`),
and the boxed objects (deep sums, blocks, opvals, tokens, seals, binaries,
arrays, utf8 texts, trash, pending).  Machine words holding packed fields
(deep sum paths, block flag bits) are unpacked into lists and flag records.
The context `Wcx` carries the `val` register and the error register.
-/

namespace Wikrt

/-- Error codes of the runtime (`wikrt_ecode`). -/
inductive Ecode where
  | ok
  | inval
  | etype
  | cxfull
  | ediv0
  | impl
  | enomem
deriving DecidableEq, Repr

/-- Block attribute flags carried in a `WIKRT_OTAG_BLOCK` header word:
`WIKRT_BLOCK_AFFINE`, `WIKRT_BLOCK_RELEVANT` (the safe, substructural ones)
and `WIKRT_BLOCK_LAZY`, `WIKRT_BLOCK_FORK` (the unsafe decorators). -/
structure BFlags where
  aff : Bool
  rel : Bool
  lazyk : Bool
  fork : Bool
deriving DecidableEq, Repr

/-- Empty flag set. -/
def BFlags.none : BFlags := ⟨false, false, false, false⟩

/-- Bitwise or of two flag words, as performed by `(*pfnbc) |= (*pfnab)`
in `wikrt_compose` and by `wikrt_block_attrib`. -/
def BFlags.or (x y : BFlags) : BFlags :=
  ⟨x.aff || y.aff, x.rel || y.rel, x.lazyk || y.lazyk, x.fork || y.fork⟩

/-- Unsafe block decorators: any attribute outside `WIKRT_SAFE_BLOCK_ATTRIBS`. -/
def BFlags.unsafeAttr (x : BFlags) : Bool := x.lazyk || x.fork

/-- Tagged runtime values (`wikrt_val`).  `pairL`/`pairR` are the `WIKRT_PL` /
`WIKRT_PR` pair-in-sum tags (`PL = P+1`, `PR = P+2`), `unitL`/`unitR` the
`WIKRT_UL`/`WIKRT_UR` unit-in-sum constants.  Boxed objects follow the otag
layouts of wikrt.c: `deepsum` unpacks the two-bit path steps of
`WIKRT_OTAG_DEEPSUM` words into a list (head = outermost sum step, matching
the low bits of the packed word); `binary`, `array` and `textC` are chunk
objects `(hdr, next, size, buffer)`; `sealSm` holds a word-folded `:` sealer,
`seal` a general token; `opval` carries the `WIKRT_OPVAL_LAZYKF` hide bit. -/
inductive Wval where
  | unit
  | unitL
  | unitR
  | int (n : Int)
  | pair (a b : Wval)
  | pairL (a b : Wval)
  | pairR (a b : Wval)
  | deepsum (path : List Bool) (v : Wval)
  | block (f : BFlags) (ops : Wval)
  | opval (hide : Bool) (v : Wval)
  | optok (name : List Nat)
  | sealSm (tok : Nat) (v : Wval)
  | sealG (name : List Nat) (v : Wval)
  | binary (next : Wval) (bytes : List Nat)
  | array (next : Wval) (elems : List Wval)
  | utf8 (v : Wval)
  | trash (f : BFlags) (v : Wval)
  | pend (v : Wval)
  | textC (next : Wval) (charct : Nat) (bytes : List Nat)

/-- Context state: the public value register and the error register.  The
arena itself is abstracted away (values are trees); the remaining root
registers (`pc`, `cc`, `txn`) do not participate in any claim. -/
structure Wcx where
  val : Wval
  ecode : Ecode

/-- Whether an error is latched (`wikrt_has_error`). -/
def wikrt_has_error (cx : Wcx) : Bool := cx.ecode ≠ .ok

/-- Latch an error code (`wikrt_set_error`): only the first non-OK code
sticks.  `wikrt_cx_relax` is a documented non-operation. -/
def wikrt_set_error (cx : Wcx) (e : Ecode) : Wcx :=
  if wikrt_has_error cx = false ∧ e ≠ .ok then { cx with ecode := e } else cx

/-- Reset a context (`wikrt_cx_reset`): drop the value registers back to
their initial state and clear the error register.  `WIKRT_REG_VAL_INIT` is
defined in the missing header; modelled from the spec as the unit value. -/
def wikrt_cx_reset (_cx : Wcx) : Wcx := { val := .unit, ecode := .ok }

/-! ### Product primitives (wikrt.c lines 801-895)

Each operates on the whole value register, re-threading cells without
allocation; a shape mismatch latches `WIKRT_ETYPE`. -/

/-- The `w` swap `(a*(b*c)) → (b*(a*c))` (`wikrt_wswap`). -/
def wikrt_wswap (cx : Wcx) : Wcx :=
  match cx.val with
  | .pair a (.pair b c) => { cx with val := .pair b (.pair a c) }
  | _ => wikrt_set_error cx .etype

/-- The `z` swap `(a*(b*(c*d))) → (a*(c*(b*d)))` (`wikrt_zswap`), which runs
`wikrt_wswap_v` on the second component. -/
def wikrt_zswap (cx : Wcx) : Wcx :=
  match cx.val with
  | .pair a (.pair b (.pair c d)) => { cx with val := .pair a (.pair c (.pair b d)) }
  | _ => wikrt_set_error cx .etype

/-- The `l` associator `(a*(b*c)) → ((a*b)*c)` (`wikrt_assocl`). -/
def wikrt_assocl (cx : Wcx) : Wcx :=
  match cx.val with
  | .pair a (.pair b c) => { cx with val := .pair (.pair a b) c }
  | _ => wikrt_set_error cx .etype

/-- The `r` associator `((a*b)*c) → (a*(b*c))` (`wikrt_assocr`). -/
def wikrt_assocr (cx : Wcx) : Wcx :=
  match cx.val with
  | .pair (.pair a b) c => { cx with val := .pair a (.pair b c) }
  | _ => wikrt_set_error cx .etype

/-! ### Integer primitives (wikrt.c lines 1719-1829) -/

/-- Truncated divide and modulus as C11 `/` and `%` produce them, followed by
the repair step of `wikrt_smallint_divmod`: when the C remainder's sign
differs from the divisor's, add the divisor to the remainder and decrement
the quotient.  `Int.tdiv`/`Int.tmod` are exactly the C11 truncated-toward-zero
operations.  Returns `(quot, rem)`. -/
def wikrt_smallint_divmod (dividend divisor : Int) : Int × Int :=
  let quot := dividend.tdiv divisor
  let rem := dividend.tmod divisor
  let needsRepair := if 0 < divisor then rem < 0 else 0 < rem
  if needsRepair then (quot - 1, rem + divisor) else (quot, rem)

/-- Shape test for `(int * (int * e))` (`wikrt_cx_has_two_ints`), combined
with destructuring.  wikrt-old has only small integers. -/
def wikrt_two_ints (v : Wval) : Option (Int × Int × Wval) :=
  match v with
  | .pair (.int a) (.pair (.int b) e) => some (a, b, e)
  | _ => none

/-- Integer addition (`wikrt_int_add`).  The sum replaces the inner integer
and the outer cell is popped; a sum outside `[-smax, smax]` latches
`WIKRT_IMPL` (the reserved bigint path).  `smax` stands for
`WIKRT_SMALLINT_MAX`; `WIKRT_SMALLINT_MIN = -WIKRT_SMALLINT_MAX` per the
static assertion in wikrt.c. -/
def wikrt_int_add (smax : Int) (cx : Wcx) : Wcx :=
  match wikrt_two_ints cx.val with
  | some (a, b, e) =>
      if -smax ≤ a + b ∧ a + b ≤ smax then { cx with val := .pair (.int (a + b)) e }
      else wikrt_set_error cx .impl
  | none => wikrt_set_error cx .etype

/-- Integer multiplication (`wikrt_int_mul`), same range policy as addition. -/
def wikrt_int_mul (smax : Int) (cx : Wcx) : Wcx :=
  match wikrt_two_ints cx.val with
  | some (a, b, e) =>
      if -smax ≤ a * b ∧ a * b ≤ smax then { cx with val := .pair (.int (a * b)) e }
      else wikrt_set_error cx .impl
  | none => wikrt_set_error cx .etype

/-- Integer division (`wikrt_int_div`):
`(I(divisor) * (I(dividend) * e)) → (I(remainder) * (I(quotient) * e))`.
A zero divisor latches `WIKRT_EDIV0`. -/
def wikrt_int_div (cx : Wcx) : Wcx :=
  match wikrt_two_ints cx.val with
  | some (dvs, dvd, e) =>
      if dvs = 0 then wikrt_set_error cx .ediv0
      else
        let qr := wikrt_smallint_divmod dvd dvs
        { cx with val := .pair (.int qr.2) (.pair (.int qr.1) e) }
  | none => wikrt_set_error cx .etype

/-- Result of an integer comparison (`wikrt_ord`). -/
inductive Wcmp where
  | gt
  | lt
  | eq
deriving DecidableEq, Repr

/-- Integer comparison (`wikrt_int_cmp`): non-destructive, compares the inner
integer `b` to the outer `a` on `(I(a)*(I(b)*e))`, writing the out-parameter
only on success (modelled as `Option`). -/
def wikrt_int_cmp (cx : Wcx) : Wcx × Option Wcmp :=
  match wikrt_two_ints cx.val with
  | some (a, b, _) =>
      (cx, some (if b > a then .gt else if b < a then .lt else .eq))
  | none => (wikrt_set_error cx .etype, none)

/-- Integer negation (`wikrt_int_neg`), closed on small integers. -/
def wikrt_int_neg (cx : Wcx) : Wcx :=
  match cx.val with
  | .pair (.int n) e => { cx with val := .pair (.int (-n)) e }
  | _ => wikrt_set_error cx .etype

/-! ### Substructure, copy, drop, and size estimation
(wikrt.c lines 330-389, 440-752) -/

/-- Substructural summary accumulated by the copy and drop scans
(`wikrt_ss`): affine (may not copy), relevant (may not drop), and the
pending mark contributed by `WIKRT_OTAG_PEND` nodes. -/
structure SSv where
  aff : Bool
  rel : Bool
  pend : Bool
deriving DecidableEq, Repr

/-- Empty summary. -/
def SSv.nil : SSv := ⟨false, false, false⟩

/-- Union of two summaries. -/
def SSv.or (x y : SSv) : SSv := ⟨x.aff || y.aff, x.rel || y.rel, x.pend || y.pend⟩

/-- Copyable summary (`wikrt_ss_copyable`).  The predicate lives in the
missing header; modelled from the spec: neither affine nor pending. -/
def SSv.copyable (s : SSv) : Bool := !s.aff && !s.pend

/-- Droppable summary (`wikrt_ss_droppable`).  Modelled from the spec:
neither relevant nor pending. -/
def SSv.droppable (s : SSv) : Bool := !s.rel && !s.pend

mutual

/-- The substructural scan common to `wikrt_copy_rs` and `wikrt_drop_sv`:
blocks and trash contribute their affine/relevant flags
(`wikrt_capture_block_ss`), `PEND` contributes `WIKRT_SS_PEND`, and an
`OPVAL` whose `LAZYKF` flag is set hides its inner summary entirely (the
inner value is still walked, with a NULL summary).  `OPTOK` and parse-time
text chunks hit the abort branch of both walks; see `supported`. -/
def ssOf : Wval → SSv
  | .unit | .unitL | .unitR => .nil
  | .int _ => .nil
  | .pair a b => (ssOf a).or (ssOf b)
  | .pairL a b => (ssOf a).or (ssOf b)
  | .pairR a b => (ssOf a).or (ssOf b)
  | .deepsum _ v => ssOf v
  | .block f ops => (ssOf ops).or ⟨f.aff, f.rel, false⟩
  | .opval h v => if h then SSv.nil else ssOf v
  | .optok _ => .nil
  | .sealSm _ v => ssOf v
  | .sealG _ v => ssOf v
  | .binary next _ => ssOf next
  | .array next elems => (ssOfList elems).or (ssOf next)
  | .utf8 v => ssOf v
  | .trash f v => (ssOf v).or ⟨f.aff, f.rel, false⟩
  | .pend v => (ssOf v).or ⟨false, false, true⟩
  | .textC next _ _ => ssOf next

/-- Summary of the inline slots of an `ARRAY` chunk. -/
def ssOfList : List Wval → SSv
  | [] => .nil
  | v :: vs => (ssOf v).or (ssOfList vs)

end

mutual

/-- Values covered by the copy/drop/vsize shape walks.  `OPTOK` and the
parser's text chunks are absent from those switch statements in wikrt.c
(their default branches abort the process), so they are outside the domain
of the size and copy claims. -/
def supported : Wval → Bool
  | .unit | .unitL | .unitR => true
  | .int _ => true
  | .pair a b => supported a && supported b
  | .pairL a b => supported a && supported b
  | .pairR a b => supported a && supported b
  | .deepsum _ v => supported v
  | .block _ v => supported v
  | .opval _ v => supported v
  | .optok _ => false
  | .sealSm _ v => supported v
  | .sealG _ v => supported v
  | .binary next _ => supported next
  | .array next elems => supported next && supportedList elems
  | .utf8 v => supported v
  | .trash _ v => supported v
  | .pend v => supported v
  | .textC _ _ _ => false

/-- Support test for array slots. -/
def supportedList : List Wval → Bool
  | [] => true
  | v :: vs => supported v && supportedList vs

end

/-- Cell size in bytes, `WIKRT_CELLSIZE` = two value words.  wikrt-old is a
32-bit build (`sizeof(wikrt_val)` = 4); the numeric constants live in the
missing header and are modelled from the spec. -/
def WIKRT_CELLSIZE : Nat := 8

/-- Size of one value word in bytes (`sizeof(wikrt_val)`). -/
def WIKRT_WORDSIZE : Nat := 4

/-- Round a byte count up to whole cells (`WIKRT_CELLBUFF` /
`wikrt_cellbuff`). -/
def wikrt_cellbuff (n : Nat) : Nat := ((n + 7) / 8) * 8

mutual

/-- Copy size estimator (`wikrt_vsize`): walks the same shapes as the copy
and reports the bytes a copy would allocate.  Shallow values (units, unit
sums, small ints) cost nothing; pair cells one cell; simple boxed objects
one cell; `SEAL` a cell-rounded header plus token; `BINARY` two header cells
plus the cell-rounded buffer; `ARRAY` two header cells plus the cell-rounded
slot buffer plus the slots themselves. -/
def wikrt_vsize : Wval → Nat
  | .unit | .unitL | .unitR => 0
  | .int _ => 0
  | .pair a b => WIKRT_CELLSIZE + wikrt_vsize a + wikrt_vsize b
  | .pairL a b => WIKRT_CELLSIZE + wikrt_vsize a + wikrt_vsize b
  | .pairR a b => WIKRT_CELLSIZE + wikrt_vsize a + wikrt_vsize b
  | .deepsum _ v => WIKRT_CELLSIZE + wikrt_vsize v
  | .block _ ops => WIKRT_CELLSIZE + wikrt_vsize ops
  | .opval _ v => WIKRT_CELLSIZE + wikrt_vsize v
  | .optok _ => 0
  | .sealSm _ v => WIKRT_CELLSIZE + wikrt_vsize v
  | .sealG name v => wikrt_cellbuff (WIKRT_CELLSIZE + name.length) + wikrt_vsize v
  | .binary next bytes =>
      2 * WIKRT_CELLSIZE + wikrt_cellbuff bytes.length + wikrt_vsize next
  | .array next elems =>
      2 * WIKRT_CELLSIZE + wikrt_cellbuff (WIKRT_WORDSIZE * elems.length) +
        wikrt_vsizeList elems + wikrt_vsize next
  | .utf8 v => WIKRT_CELLSIZE + wikrt_vsize v
  | .trash _ v => WIKRT_CELLSIZE + wikrt_vsize v
  | .pend v => WIKRT_CELLSIZE + wikrt_vsize v
  | .textC _ _ _ => 0

/-- Size of the inline slots of an `ARRAY` chunk. -/
def wikrt_vsizeList : List Wval → Nat
  | [] => 0
  | v :: vs => wikrt_vsize v + wikrt_vsizeList vs

end

mutual

/-- The value produced by the iterative copy (`wikrt_copy_rs`): each node is
rebuilt in the destination arena with identical shape; the `OPVAL(LAZYKF)`
branch copies its inner value with a hidden summary but builds the same
cell. -/
def wikrt_copy_r : Wval → Wval
  | .unit => .unit
  | .unitL => .unitL
  | .unitR => .unitR
  | .int n => .int n
  | .pair a b => .pair (wikrt_copy_r a) (wikrt_copy_r b)
  | .pairL a b => .pairL (wikrt_copy_r a) (wikrt_copy_r b)
  | .pairR a b => .pairR (wikrt_copy_r a) (wikrt_copy_r b)
  | .deepsum p v => .deepsum p (wikrt_copy_r v)
  | .block f ops => .block f (wikrt_copy_r ops)
  | .opval h v => .opval h (wikrt_copy_r v)
  | .optok name => .optok name
  | .sealSm t v => .sealSm t (wikrt_copy_r v)
  | .sealG name v => .sealG name (wikrt_copy_r v)
  | .binary next bytes => .binary (wikrt_copy_r next) bytes
  | .array next elems => .array (wikrt_copy_r next) (wikrt_copy_rList elems)
  | .utf8 v => .utf8 (wikrt_copy_r v)
  | .trash f v => .trash f (wikrt_copy_r v)
  | .pend v => .pend (wikrt_copy_r v)
  | .textC next c bytes => .textC next c bytes

/-- Copies of the inline slots of an `ARRAY` chunk. -/
def wikrt_copy_rList : List Wval → List Wval
  | [] => []
  | v :: vs => wikrt_copy_r v :: wikrt_copy_rList vs

end

mutual

/-- Bytes allocated by `wikrt_copy_rs`, transcribed branch by branch: one
cell per pair cell (`wikrt_alloc_r(rcx, WIKRT_CELLSIZE)`), one cell per
simple `(otag, value)` object (both `OPVAL` branches included), a
cell-rounded header-plus-token for `SEAL`, the cell-rounded buffer plus two
header cells for `BINARY` and `ARRAY`, plus the slot copies for `ARRAY`. -/
def wikrt_copyAlloc : Wval → Nat
  | .unit | .unitL | .unitR => 0
  | .int _ => 0
  | .pair a b => WIKRT_CELLSIZE + wikrt_copyAlloc a + wikrt_copyAlloc b
  | .pairL a b => WIKRT_CELLSIZE + wikrt_copyAlloc a + wikrt_copyAlloc b
  | .pairR a b => WIKRT_CELLSIZE + wikrt_copyAlloc a + wikrt_copyAlloc b
  | .deepsum _ v => WIKRT_CELLSIZE + wikrt_copyAlloc v
  | .block _ ops => WIKRT_CELLSIZE + wikrt_copyAlloc ops
  | .opval _ v => WIKRT_CELLSIZE + wikrt_copyAlloc v
  | .optok _ => 0
  | .sealSm _ v => WIKRT_CELLSIZE + wikrt_copyAlloc v
  | .sealG name v => wikrt_cellbuff (WIKRT_CELLSIZE + name.length) + wikrt_copyAlloc v
  | .binary next bytes =>
      wikrt_cellbuff bytes.length + 2 * WIKRT_CELLSIZE + wikrt_copyAlloc next
  | .array next elems =>
      wikrt_cellbuff (WIKRT_WORDSIZE * elems.length) + 2 * WIKRT_CELLSIZE +
        wikrt_copyAllocList elems + wikrt_copyAlloc next
  | .utf8 v => WIKRT_CELLSIZE + wikrt_copyAlloc v
  | .trash _ v => WIKRT_CELLSIZE + wikrt_copyAlloc v
  | .pend v => WIKRT_CELLSIZE + wikrt_copyAlloc v
  | .textC _ _ _ => 0

/-- Copy allocation for the inline slots of an `ARRAY` chunk. -/
def wikrt_copyAllocList : List Wval → Nat
  | [] => 0
  | v :: vs => wikrt_copyAlloc v + wikrt_copyAllocList vs

end

/-- Size estimate taken by `wikrt_copy_m` when the size bypass is not used
(`wikrt_peek_size_ssp`): one cell for the final `wikrt_intro_r` plus the
`wikrt_vsize` walk over the copied value. -/
def wikrt_copy_m_est (v : Wval) : Nat := WIKRT_CELLSIZE + wikrt_vsize v

/-- Bytes actually allocated by `wikrt_copy_m`: the `wikrt_copy_r` walk plus
the `wikrt_intro_r` cell. -/
def wikrt_copy_m_act (v : Wval) : Nat := wikrt_copyAlloc v + WIKRT_CELLSIZE

/-- The copy operation (`wikrt_copy` via `wikrt_copy_m`): requires
`(v * e)`, stacks the copy above the original, and only then latches
`WIKRT_ETYPE` if the scanned summary is non-copyable. -/
def wikrt_copy (cx : Wcx) : Wcx :=
  match cx.val with
  | .pair v rest =>
      let cx1 : Wcx := { cx with val := .pair (wikrt_copy_r v) (.pair v rest) }
      if (ssOf v).copyable then cx1 else wikrt_set_error cx1 .etype
  | _ => wikrt_set_error cx .etype

/-- The drop operation (`wikrt_drop`): pops the top value, performs the
substructural scan while destroying it, and only then latches `WIKRT_ETYPE`
if the summary is non-droppable. -/
def wikrt_drop (cx : Wcx) : Wcx :=
  match cx.val with
  | .pair v rest =>
      let cx1 : Wcx := { cx with val := rest }
      if (ssOf v).droppable then cx1 else wikrt_set_error cx1 .etype
  | _ => wikrt_set_error cx .etype

/-! ### Block composition (wikrt.c lines 1886-2004) -/

/-- Opcode of the accelerated inline function (`ACCEL_INLINE`, accelerating
the `vr$c` sequence).  Ops are encoded as small integers; the opcode table
lives in the missing header, so the numeric value is a modelling choice that
no theorem depends on. -/
def ACCEL_INLINE : Int := 61

/-- Length of a proper ops list: a `PL` cons chain ending in the `UR`
terminator. -/
def opsLen : Wval → Option Nat
  | .unitR => some 0
  | .pairL _ tl => (opsLen tl).map (· + 1)
  | _ => none

/-- Concatenation of ops lists, as realised by splicing the right operand's
list in place of the left operand's `UR` terminator (the two
`wikrt_pval_swap` calls of `wikrt_compose`).  A malformed left list is the
scan's abort branch. -/
def opsAppend : Wval → Wval → Option Wval
  | .unitR, r => some r
  | .pairL h tl, r => (opsAppend tl r).map (.pairL h ·)
  | _, _ => none

/-- The probe of `wikrt_scan_to_block_end` with a hop budget: a `PL` cons
descends (spending one hop of the do-while budget), the `UR` terminator is
success (`some true`), budget exhaustion returns NULL (`some false`), and
any other node is the abort branch (`none`). -/
def scanSteps : Nat → Wval → Option Bool
  | _, .unitR => some true
  | 0, .pairL _ _ => some false
  | n + 1, .pairL _ tl => scanSteps n tl
  | _, _ => none

/-- The `smallfn` hop budget of `wikrt_compose` (`SMALL_FN_LIMIT`). -/
def SMALL_FN_LIMIT : Nat := 15

/-- Ops list of `[[block] inline]` as built by
`wikrt_block_quote_inline_attrib`: the original block, flags intact, is
quoted as an `OPVAL(LAZYKF)` op and followed by the accelerated inline
op. -/
def quoteInlineOps (f : BFlags) (ops : Wval) : Wval :=
  .pairL (.opval true (.block f ops)) (.pairL (.int ACCEL_INLINE) .unitR)

/-- Unsafe-decorator stripping (`wikrt_hide_block_decorators`): a block
carrying a `LAZY`/`FORK` attribute is rewritten as `[[block] inline]` with
empty outer flags; otherwise it is unchanged.  Returns the flags and ops of
the possibly rewritten block. -/
def hideDecor (f : BFlags) (ops : Wval) : BFlags × Wval :=
  if f.unsafeAttr then (BFlags.none, quoteInlineOps f ops) else (f, ops)

/-- Block composition (`wikrt_compose`) on `([a→b] * ([b→c] * e))`: hide
decorators on both operands, probe the left operand's ops list for its `UR`
terminator within `SMALL_FN_LIMIT` hops, on probe failure rewrite the left
operand as `[[block] inline]` (attribute 0) and retry with an unbounded
budget, then splice the right operand's ops list in place of the
terminator, or the two flag words together, and pop the outer cell.
`none` models the abort branch taken on malformed ops lists; operands that
are not blocks latch `WIKRT_ETYPE` (the C error path additionally mangles
the stack through the quote-inline rewrite before returning). -/
def wikrt_compose (cx : Wcx) : Option Wcx :=
  match cx.val with
  | .pair (.block af aops) (.pair (.block bf bops) rest) =>
      let a1 := hideDecor af aops
      let b1 := hideDecor bf bops
      match scanSteps SMALL_FN_LIMIT a1.2 with
      | none => none
      | some true =>
          (opsAppend a1.2 b1.2).map fun o =>
            { cx with val := .pair (.block (b1.1.or a1.1) o) rest }
      | some false =>
          (opsAppend (quoteInlineOps a1.1 a1.2) b1.2).map fun o =>
            { cx with val := .pair (.block (b1.1.or BFlags.none) o) rest }
  | _ => some (wikrt_set_error cx .etype)

/-! ### Sum wrap/unwrap and chunk expansion (wikrt.c lines 963-1124)

Sum tags are embedded as `Bool` with `true` = `WIKRT_INL`. -/

/-- Byte count of a UTF-8 sequence from its first byte
(`utf8_readcp_size`).  Modelled from the spec: the UTF-8 codec is an
external collaborator whose source is not in the repository. -/
def readcpSize (b : Int) : Nat :=
  if b < 0x80 then 1 else if b < 0xE0 then 2 else if b < 0xF0 then 3 else 4

/-- Codepoint assembled from a first byte and its continuation bytes
(`utf8_readcp_unsafe`, spec-modelled): masks the length prefix from the
first byte and takes six payload bits from each continuation byte. -/
def readcpVal (b1 : Int) (rest : List Int) : Int :=
  match rest with
  | [] => b1
  | [b2] => (b1 % 32) * 64 + b2 % 64
  | [b2, b3] => (b1 % 16) * 4096 + (b2 % 64) * 64 + b3 % 64
  | [b2, b3, b4] => (b1 % 8) * 262144 + (b2 % 64) * 4096 + (b3 % 64) * 64 + b4 % 64
  | _ => 0

/-- Result of reading one byte through `wikrt_read_binary`: a byte with the
rest of the list, the end of the list (`WIKRT_INR` reached, zero bytes
read, no error), or a type error / unsupported shape. -/
inductive ReadB where
  | got (b : Int) (rest : Wval)
  | done
  | bad

/-- One byte from a byte list value, as `wikrt_read_binary` consumes it:
a basic `PL` cons node must hold a small integer in `[0, 255]`; a `BINARY`
chunk yields its first buffer byte, adjusting size and buffer and stepping
to `next` when the chunk empties; the `UR` terminator is a clean end.
Shapes the reader would have to expand further are out of the modelled
domain (`bad`). -/
def readBin1 : Wval → ReadB
  | .pairL a rest =>
      (match a with
        | .int b => if 0 ≤ b ∧ b ≤ 255 then ReadB.got b rest else .bad
        | _ => .bad)
  | .binary next bytes =>
      (match bytes with
        | b :: bs =>
            if b ≤ 255 then ReadB.got b (if bs.isEmpty then next else .binary next bs)
            else .bad
        | [] => .bad)
  | .unitR => .done
  | _ => .bad

/-- Reading exactly `n` bytes — the UTF-8 expansion asserts that exactly
the requested continuation bytes arrive, so a short or malformed read is
`none`. -/
def readBinN : Nat → Wval → Option (List Int × Wval)
  | 0, v => some ([], v)
  | n + 1, v =>
      match readBin1 v with
      | .got b v1 => (readBinN n v1).map (fun p => (b :: p.1, p.2))
      | _ => none

/-- Sum wrap on the top value (`wikrt_wrap_sum_p`): `P`/`U` take the
shallow encodings `PL`/`PR`/`UL`/`UR` (`(*v) += inL ? 1 : 2`); an existing
deep sum gains two path bits; anything else is wrapped in a fresh
`DEEPSUM`.  The word-capacity check (`wikrt_deepsum_with_free_space`) is
purely a packing concern: a full cell chains a new wrapper whose denotation
equals extending the path, so the unpacked path list absorbs it. -/
def wikrt_wrap_sum_v (inL : Bool) : Wval → Wval
  | .pair a b => if inL then .pairL a b else .pairR a b
  | .unit => if inL then .unitL else .unitR
  | .deepsum p v => .deepsum (inL :: p) v
  | v => .deepsum [inL] v

/-- The non-allocating part of `wikrt_unwrap_sum_p`: shallow tags are pure
tag arithmetic (`(*v) -= 1` or `2`), a deep sum loses two path bits and
drops the wrapper once the path empties.  An empty stored path is
unreachable (paths gain at least one step when allocated). -/
def unwrapShallow : Wval → Option (Bool × Wval)
  | .pairL a b => some (true, .pair a b)
  | .pairR a b => some (false, .pair a b)
  | .unitL => some (true, .unit)
  | .unitR => some (false, .unit)
  | .deepsum [d] v => some (d, v)
  | .deepsum (d :: rest) v => some (d, .deepsum rest v)
  | _ => none

/-- Compact-sum expansion (`wikrt_expand_sum_p`): pops one element out of an
`ARRAY` or `BINARY` chunk into a fresh `PL` cell (stepping to `next` when
the chunk empties), or reads one codepoint (1-4 bytes) out of a `UTF8`
value through the codec, re-wrapping the remaining bytes.  A fully consumed
`UTF8` text strips to its empty byte list and the retry unwraps that. -/
def expandSum : Wval → Option Wval
  | .array next (e :: es) =>
      some (.pairL e (if es.isEmpty then next else .array next es))
  | .binary next (b :: bs) =>
      some (.pairL (.int b) (if bs.isEmpty then next else .binary next bs))
  | .utf8 w =>
      match readBin1 w with
      | .done => some w
      | .got b1 w1 =>
          (match readBinN (readcpSize b1 - 1) w1 with
            | some (bs, w2) => some (.pairL (.int (readcpVal b1 bs)) (.utf8 w2))
            | none => none)
      | .bad => none
  | _ => none

/-- Full sum unwrap (`wikrt_unwrap_sum_p` with its expansion tailcall):
shallow unwrap, or one expansion — which always produces a `PL` cell or the
empty-list terminator — followed by the shallow unwrap. -/
def wikrt_unwrap_sum_v (v : Wval) : Option (Bool × Wval) :=
  match unwrapShallow v with
  | some r => some r
  | none =>
      match expandSum v with
      | some v1 => unwrapShallow v1
      | none => none

/-- Observation domain for sum round trips: values with explicit sums and
with `ARRAY`/`BINARY`/`UTF8` chunks unfolded into their list form. -/
inductive DVal where
  | unit
  | int (n : Int)
  | pair (a b : DVal)
  | inl (v : DVal)
  | inr (v : DVal)
  | block (f : BFlags) (ops : DVal)
  | opval (hide : Bool) (v : DVal)
  | optok (name : List Nat)
  | sealSm (tok : Nat) (v : DVal)
  | sealG (name : List Nat) (v : DVal)
  | trash (f : BFlags) (v : DVal)
  | pend (v : DVal)
  | ustuck (v : DVal)
  | textD (charct : Nat) (bytes : List Nat) (next : DVal)

/-- Denotation of a deep sum path (head = outermost wrapper). -/
def denoteSum : List Bool → DVal → DVal
  | [], d => d
  | b :: p, d => if b then .inl (denoteSum p d) else .inr (denoteSum p d)

/-- Denotation of a binary chunk's bytes as a cons list of small ints. -/
def denoteBytes : List Nat → DVal → DVal
  | [], d => d
  | b :: bs, d => .inl (.pair (.int b) (denoteBytes bs d))

/-- Byte chain over already-read (integer) bytes, used to relate
`wikrt_read_binary` to the denotation. -/
def denoteBytesI : List Int → DVal → DVal
  | [], d => d
  | b :: bs, d => .inl (.pair (.int b) (denoteBytesI bs d))

/-- One byte off the front of a denoted byte list: a cons cell holding a
small integer in `[0, 255]`. -/
def dHeadByte : DVal → Option (Int × DVal)
  | .inl (.pair (.int b) rest) => if 0 ≤ b ∧ b ≤ 255 then some (b, rest) else none
  | _ => none

/-- Decoding one codepoint off the front of a denoted byte list, with the
same codec the chunk expansion uses: the first byte fixes the sequence
length, continuation bytes must be byte-range cons cells. -/
def utf8DenStep (d : DVal) : Option (Int × DVal) :=
  match dHeadByte d with
  | none => none
  | some (b1, r1) =>
      if readcpSize b1 = 1 then some (readcpVal b1 [], r1)
      else if readcpSize b1 = 2 then
        (match dHeadByte r1 with
          | some (b2, r2) => some (readcpVal b1 [b2], r2)
          | none => none)
      else if readcpSize b1 = 3 then
        (match dHeadByte r1 with
          | some (b2, r2) =>
              (match dHeadByte r2 with
                | some (b3, r3) => some (readcpVal b1 [b2, b3], r3)
                | none => none)
          | none => none)
      else
        (match dHeadByte r1 with
          | some (b2, r2) =>
              (match dHeadByte r2 with
                | some (b3, r3) =>
                    (match dHeadByte r3 with
                      | some (b4, r4) => some (readcpVal b1 [b2, b3, b4], r4)
                      | none => none)
                | none => none)
          | none => none)

/-- Taking a head byte strictly shrinks the denoted list (termination
measure for the decoder). -/
theorem dHeadByte_size (d : DVal) (b : Int) (rest : DVal)
    (h : dHeadByte d = some (b, rest)) : sizeOf rest < sizeOf d := by
  unfold dHeadByte at h
  split at h
  · split at h
    · injection h with h1
      injection h1 with h2 h3
      subst h3
      simp
      omega
    · exact Option.noConfusion h
  · exact Option.noConfusion h

/-- Decoding one codepoint strictly shrinks the denoted list. -/
theorem utf8DenStep_size (d : DVal) (cp : Int) (rest : DVal)
    (h : utf8DenStep d = some (cp, rest)) : sizeOf rest < sizeOf d := by
  unfold utf8DenStep at h
  split at h
  · exact Option.noConfusion h
  · rename_i b1 r1 h1
    have hs1 := dHeadByte_size d b1 r1 h1
    split at h
    · injection h with hx
      injection hx with hx1 hx2
      subst hx2
      exact hs1
    · split at h
      · split at h
        · rename_i b2 r2 h2
          have hs2 := dHeadByte_size r1 b2 r2 h2
          injection h with hx
          injection hx with hx1 hx2
          subst hx2
          omega
        · exact Option.noConfusion h
      · split at h
        · split at h
          · rename_i b2 r2 h2
            have hs2 := dHeadByte_size r1 b2 r2 h2
            split at h
            · rename_i b3 r3 h3
              have hs3 := dHeadByte_size r2 b3 r3 h3
              injection h with hx
              injection hx with hx1 hx2
              subst hx2
              omega
            · exact Option.noConfusion h
          · exact Option.noConfusion h
        · split at h
          · rename_i b2 r2 h2
            have hs2 := dHeadByte_size r1 b2 r2 h2
            split at h
            · rename_i b3 r3 h3
              have hs3 := dHeadByte_size r2 b3 r3 h3
              split at h
              · rename_i b4 r4 h4
                have hs4 := dHeadByte_size r3 b4 r4 h4
                injection h with hx
                injection hx with hx1 hx2
                subst hx2
                omega
              · exact Option.noConfusion h
            · exact Option.noConfusion h
          · exact Option.noConfusion h

/-- Denotation of a UTF-8 text: decode the denoted byte list one codepoint
at a time; a clean end denotes the empty list, and a position that is not a
decodable byte list is left as an `ustuck` marker (the C expansion faults
there). -/
def utf8Den (d : DVal) : DVal :=
  match h : utf8DenStep d with
  | some (cp, rest) => .inl (.pair (.int cp) (utf8Den rest))
  | none =>
      match d with
      | .inr .unit => .inr .unit
      | _ => .ustuck d
termination_by sizeOf d
decreasing_by exact utf8DenStep_size d cp rest h

mutual

/-- Denotation of a runtime value in the observation domain: shallow and
deep sums become explicit `inl`/`inr`, chunk objects unfold to cons lists,
UTF-8 texts decode to codepoint lists, and all other shapes map
structurally. -/
def denote : Wval → DVal
  | .unit => .unit
  | .unitL => .inl .unit
  | .unitR => .inr .unit
  | .int n => .int n
  | .pair a b => .pair (denote a) (denote b)
  | .pairL a b => .inl (.pair (denote a) (denote b))
  | .pairR a b => .inr (.pair (denote a) (denote b))
  | .deepsum p v => denoteSum p (denote v)
  | .block f ops => .block f (denote ops)
  | .opval h v => .opval h (denote v)
  | .optok name => .optok name
  | .sealSm t v => .sealSm t (denote v)
  | .sealG name v => .sealG name (denote v)
  | .binary next bytes => denoteBytes bytes (denote next)
  | .array next elems => denoteElems elems (denote next)
  | .utf8 v => utf8Den (denote v)
  | .trash f v => .trash f (denote v)
  | .pend v => .pend (denote v)
  | .textC next c bytes => .textD c bytes (denote next)

/-- Denotation of the inline slots of an `ARRAY` chunk, consed onto the
denotation of the chunk's continuation. -/
def denoteElems : List Wval → DVal → DVal
  | [], d => d
  | e :: es, d => .inl (.pair (denote e) (denoteElems es d))

end

/-- Shallow sum tags: the forms on which unwrap is pure tag arithmetic. -/
def shallowSum : Wval → Bool
  | .pairL _ _ => true
  | .pairR _ _ => true
  | .unitL => true
  | .unitR => true
  | _ => false

end Wikrt

namespace Wikrt

/-! ### The parser (wikilon-runtime/wikrt_parse.c)

`wikrt_text_to_block` parses the text at the top of the value register
into a block, holding `(ops * (stack * (text * e)))` in the register
while it runs.  The register primitives it calls (`wikrt_intro_r`,
`wikrt_assocl`, `wikrt_wswap`, `wikrt_zswap`, `wikrt_assocr`,
`wikrt_wrap_sum`, `wikrt_drop`, `wikrt_read_text`,
`wikrt_reverse_text_chunks`) live in the wikilon-runtime `wikrt.c`,
which is not in the repository.  Modelled from the spec: the standard
product/sum register algebra (the same algebra the wikrt-old file
implements), returning `none` on a shape mismatch.  The parser asserts
or ignores their status codes, so a primitive failure is modelled as a
`fault` - an aborted run that never returns a code.  The effect of
`wikrt_reverse_text_chunks` on the text-chunks slot and the register
representation a partially consumed text (`wikrt_read_text`) leaves
behind are unknown; the development is parameterised over them (`rtc`
and `textVal`), so every theorem holds for every choice.  Memory
reserves are decided by an oracle list of booleans (head = outcome of
the next `wikrt_mem_reserve` call, empty oracle = success). -/

/-- Intermediate parse buffer size, `WIKRT_CELLSIZE * 1024` bytes. -/
def WIKRT_PARSE_BUFFSZ : Nat := WIKRT_CELLSIZE * 1024

/-- How many text characters one loop step reads (`30 * 1000`). -/
def WIKRT_PARSE_READSZ : Nat := 30 * 1000

/-- Token buffer size.  Modelled from the spec: tokens are limited to 63
bytes; the constant lives in the missing header. -/
def WIKRT_TOK_BUFFSZ : Nat := 64

/-- Maximal UTF-8 encoding size of one codepoint (missing utf8.h). -/
def UTF8_MAX_CP_SIZE : Nat := 4

/-- UTF-8 encoding of one codepoint (`utf8_writecp_unsafe`, missing
utf8.c; modelled from the spec as the standard encoding). -/
def utf8_writecp (cp : Nat) : List Nat :=
  if cp < 128 then [cp]
  else if cp < 2048 then [192 + cp / 64, 128 + cp % 64]
  else if cp < 65536 then [224 + cp / 4096, 128 + cp / 64 % 64, 128 + cp % 64]
  else [240 + cp / 262144, 128 + cp / 4096 % 64, 128 + cp / 64 % 64, 128 + cp % 64]

/-- Valid token codepoints (`wikrt_token_char`, missing header; modelled
from the spec: no C0, no SP, no DEL, no curly braces). -/
def wikrt_token_char (cp : Nat) : Bool :=
  decide (32 < cp ∧ cp ≠ 123 ∧ cp ≠ 125 ∧ cp ≠ 127)

/-- Valid embedded-text codepoints (`wikrt_text_char`, missing header;
modelled from the spec: LF is the only C0 character, no DEL). -/
def wikrt_text_char (cp : Nat) : Bool :=
  decide (cp = 10 ∨ (32 ≤ cp ∧ cp ≠ 127))

/-- The 42 codepoints carrying primitive ABC operators, the nonzero
entries of `wikrt_abc2op_ascii_table` (wikrt_parse.c lines 31-46): the
lowercase and uppercase product/sum groups, percent and caret, SP, LF,
the five block operators, hash and the ten digits, the four arithmetic
operators, greater-than, and the conditional group. -/
def abcOpChars : List Nat :=
  [108, 114, 119, 122, 118, 99, 76, 82, 87, 90, 86, 67,
   37, 94, 32, 10, 36, 111, 39, 107, 102,
   35, 48, 49, 50, 51, 52, 53, 54, 55, 56, 57,
   43, 42, 45, 47, 62, 63, 68, 70, 77, 75]

/-- The ASCII dispatch table: `0` = `OP_INVAL` for every codepoint not in
the table.  The `OP_*` numbering lives in the missing header; modelled
as `cp + 1` (any nonzero value; no claim depends on the numbering). -/
def wikrt_abc2op (cp : Nat) : Nat :=
  if cp ∈ abcOpChars then cp + 1 else 0

/-- Parser states (`wikrt_parse_type`). -/
inductive PTy where
  | op
  | txt
  | txtLF
  | tok
deriving DecidableEq, Repr

/-- `wikrt_parse_state`: state tag, bracket depth, and the intermediate
byte buffer with its character count. -/
structure ParseSt where
  typ : PTy
  depth : Nat
  buff : List Nat
  charct : Nat

/-- The machine state threaded through a parse: the value register, the
parse state, and the memory-reserve oracle. -/
structure PS where
  val : Wval
  p : ParseSt
  g : List Bool

/-- Outcome of a parser step: continue, return an error code, or abort
(a failed assertion / ignored primitive failure never returns). -/
inductive StepR where
  | ok (s : PS)
  | err (c : Ecode) (s : PS)
  | fault

/-- One `wikrt_mem_reserve` decision from the oracle. -/
def reserve : List Bool → Bool × List Bool
  | [] => (true, [])
  | b :: r => (b, r)

/-- `wikrt_intro_r`: push a value onto the register. -/
def vIntro (x v : Wval) : Wval := .pair x v

/-- `wikrt_assocl` on the register, `none` on shape mismatch. -/
def vAssocl : Wval → Option Wval
  | .pair a (.pair b c) => some (.pair (.pair a b) c)
  | _ => none

/-- `wikrt_assocr` on the register, `none` on shape mismatch. -/
def vAssocr : Wval → Option Wval
  | .pair (.pair a b) c => some (.pair a (.pair b c))
  | _ => none

/-- `wikrt_wswap` on the register, `none` on shape mismatch. -/
def vWswap : Wval → Option Wval
  | .pair a (.pair b c) => some (.pair b (.pair a c))
  | _ => none

/-- `wikrt_zswap` on the register, `none` on shape mismatch. -/
def vZswap : Wval → Option Wval
  | .pair a (.pair b (.pair c d)) => some (.pair a (.pair c (.pair b d)))
  | _ => none

/-- `wikrt_wrap_sum(WIKRT_INL)` on the top register slot. -/
def vWrapInl : Wval → Option Wval
  | .pair a e => some (.pair (wikrt_wrap_sum_v true a) e)
  | _ => none

/-- `wikrt_drop` of the top register slot. -/
def vDrop : Wval → Option Wval
  | .pair _ e => some e
  | _ => none

/-- The in-place list reversal loop of `wikrt_reverse_opslist`: `hd` must
be a `PL`-cell chain ended by `WIKRT_UNIT_INR`, anything else trips the
`assert(wikrt_pl(hd))`. -/
def revOps : Wval → Wval → Option Wval
  | .unitR, tl => some tl
  | .pairL a rest, tl => revOps rest (.pairL a tl)
  | _, _ => none

/-- `wikrt_reverse_opslist`: reverse the list in the top register slot. -/
def wikrt_reverse_opslist : Wval → Option Wval
  | .pair hd e => Option.map (fun t => Wval.pair t e) (revOps hd .unitR)
  | _ => none

/-- `wikrt_fini_parse_opval_r`: wrap the finished text or block in an
`OPVAL` (no `LAZYKF`), then run `wrzwlV` to cons it onto the ops list.
The statuses are ored and asserted, so any mismatch is a fault. -/
def wikrt_fini_parse_opval_r : Wval → Option Wval
  | .pair a e =>
    match vWswap (.pair (.opval false a) e) with
    | none => none
    | some v2 =>
      match vAssocr v2 with
      | none => none
      | some v3 =>
        match vZswap v3 with
        | none => none
        | some v4 =>
          match vWswap v4 with
          | none => none
          | some v5 =>
            match vAssocl v5 with
            | none => none
            | some v6 => vWrapInl v6
  | _ => none

/-- `wikrt_flush_parse_text`: move the buffered bytes into a text chunk
consed onto the top register slot; reserve failure reports `CXFULL`
with the register untouched. -/
def wikrt_flush_parse_text (s : PS) : StepR :=
  if s.p.buff.length = 0 then .ok s
  else
    match reserve s.g with
    | (false, g1) => .err .cxfull { s with g := g1 }
    | (true, g1) =>
      match s.val with
      | .pair texts e =>
        .ok { val := .pair (.textC texts s.p.charct s.p.buff) e,
              p := { s.p with buff := [], charct := 0 }, g := g1 }
      | _ => .fault

/-- `wikrt_parser_write_char`: append one codepoint to the buffer and
flush when the buffer nears capacity. -/
def wikrt_parser_write_char (s : PS) (cp : Nat) : StepR :=
  let buff1 := s.p.buff ++ utf8_writecp cp
  let s1 : PS := { s with p := { s.p with buff := buff1, charct := s.p.charct + 1 } }
  if WIKRT_PARSE_BUFFSZ - UTF8_MAX_CP_SIZE ≤ buff1.length then
    wikrt_flush_parse_text s1
  else .ok s1

/-- `wikrt_fini_parse_text`: flush the last chunk, repair the chunk order
(`wikrt_reverse_text_chunks` is missing code, passed in as `rtc`), and
cons the finished text onto the ops list. -/
def wikrt_fini_parse_text (rtc : Wval → Wval) (s : PS) : StepR :=
  match wikrt_flush_parse_text s with
  | .fault => .fault
  | .err c s1 => .err c s1
  | .ok s1 =>
    match s1.val with
    | .pair texts e =>
      match reserve s1.g with
      | (false, g2) => .err .cxfull { s1 with val := .pair (rtc texts) e, g := g2 }
      | (true, g2) =>
        match wikrt_fini_parse_opval_r (.pair (rtc texts) e) with
        | none => .fault
        | some v3 => .ok { val := v3, p := s1.p, g := g2 }
    | _ => .fault

/-- `wikrt_step_parse_char`: the per-codepoint state machine. -/
def wikrt_step_parse_char (rtc : Wval → Wval) (s : PS) (cp : Nat) : StepR :=
  match s.p.typ with
  | .tok =>
    if cp = 125 then
      if s.p.buff.length = 0 then .err .etype s
      else
        match reserve s.g with
        | (false, g1) => .err .cxfull { s with g := g1 }
        | (true, g1) =>
          match vAssocl (vIntro (.optok s.p.buff) s.val) with
          | none => .fault
          | some v2 =>
            match vWrapInl v2 with
            | none => .fault
            | some v3 => .ok { val := v3, p := { s.p with typ := .op }, g := g1 }
    else
      if wikrt_token_char cp = false then .err .etype s
      else
        if WIKRT_TOK_BUFFSZ ≤ (s.p.buff ++ utf8_writecp cp).length then
          .err .etype { s with p := { s.p with buff := s.p.buff ++ utf8_writecp cp } }
        else .ok { s with p := { s.p with buff := s.p.buff ++ utf8_writecp cp } }
  | .txtLF =>
    if cp = 32 then
      match wikrt_parser_write_char s 10 with
      | .fault => .fault
      | .err _ s1 => .err .cxfull s1
      | .ok s1 => .ok { s1 with p := { s1.p with typ := .txt } }
    else if cp = 126 then
      match wikrt_fini_parse_text rtc s with
      | .fault => .fault
      | .err _ s1 => .err .cxfull s1
      | .ok s1 => .ok { s1 with p := { s1.p with typ := .op } }
    else .err .etype s
  | .txt =>
    if cp = 10 then .ok { s with p := { s.p with typ := .txtLF } }
    else if wikrt_text_char cp = false then .err .etype s
    else
      match wikrt_parser_write_char s cp with
      | .fault => .fault
      | .err _ s1 => .err .cxfull s1
      | .ok s1 => .ok s1
  | .op =>
    match reserve s.g with
    | (false, g1) => .err .cxfull { s with g := g1 }
    | (true, g1) =>
      if cp = 91 then
        match vAssocl (vIntro .unitR s.val) with
        | none => .fault
        | some v1 =>
          .ok { val := v1, p := { s.p with depth := s.p.depth + 1 }, g := g1 }
      else if cp = 93 then
        if s.p.depth < 1 then .err .etype { s with g := g1 }
        else
          match wikrt_reverse_opslist s.val with
          | none => .fault
          | some v1 =>
            match v1 with
            | .pair ops rest =>
              match wikrt_fini_parse_opval_r (.pair (.block BFlags.none ops) rest) with
              | none => .fault
              | some v2 =>
                .ok { val := v2, p := { s.p with depth := s.p.depth - 1 }, g := g1 }
            | _ => .fault
      else if cp = 123 then
        .ok { s with p := { s.p with typ := .tok, buff := [], charct := 0 }, g := g1 }
      else if cp = 34 then
        match vAssocl (vIntro .unitR s.val) with
        | none => .fault
        | some v1 =>
          .ok { val := v1, p := { s.p with typ := .txt, buff := [], charct := 0 }, g := g1 }
      else if cp < 128 then
        if wikrt_abc2op cp = 0 then .err .etype { s with g := g1 }
        else
          match vAssocl (vIntro (.int (wikrt_abc2op cp)) s.val) with
          | none => .fault
          | some v1 =>
            match vWrapInl v1 with
            | none => .fault
            | some v2 => .ok { val := v2, p := s.p, g := g1 }
      else .err .etype { s with g := g1 }

/-- `wikrt_step_parse`: run the state machine over one chunk, stopping at
the first non-OK status. -/
def wikrt_step_parse (rtc : Wval → Wval) : PS → List Nat → StepR
  | s, [] => .ok s
  | s, cp :: rest =>
    match wikrt_step_parse_char rtc s cp with
    | .ok s1 => wikrt_step_parse rtc s1 rest
    | .err c s1 => .err c s1
    | .fault => .fault

/-- Whether a register slot is the unit value. -/
def isUnitV : Wval → Bool
  | .unit => true
  | _ => false

/-- Whether a register slot is `WIKRT_UNIT_INR` (the empty list). -/
def isUnitRV : Wval → Bool
  | .unitR => true
  | _ => false

/-- `wikrt_fini_parse`: reverse the toplevel ops list, reuse the
`(ops * stack)` cell as the block object, drop the consumed text, and
validate the final parser state, dropping the block on failure. -/
def wikrt_fini_parse (s : PS) : StepR :=
  match wikrt_reverse_opslist s.val with
  | none => .fault
  | some v1 =>
    match vAssocl v1 with
    | none => .fault
    | some v2 =>
      match v2 with
      | .pair (.pair ops stk) rest =>
        match vWswap (.pair (.block BFlags.none ops) rest) with
        | none => .fault
        | some (.pair txtv rest2) =>
          if s.p.depth = 0 ∧ isUnitV stk = true ∧ s.p.typ = .op ∧ isUnitRV txtv = true then
            .ok { s with val := rest2 }
          else
            match vDrop rest2 with
            | none => .fault
            | some v6 => .err .etype { s with val := v6 }
        | some _ => .fault
      | _ => .fault

/-- The net register effect of the swizzle-read-swizzle sequence of the
main loop: `assocl; wswap` exposes the text, `wikrt_read_text` consumes
one chunk leaving the representation of the remaining codepoints, and
`wswap; assocr` restores the layout. -/
def setTextSlot (textVal : List Nat → Wval) (v : Wval) (rest : List Nat) : Option Wval :=
  match vAssocl v with
  | none => none
  | some v1 =>
    match vWswap v1 with
    | none => none
    | some v2 =>
      match v2 with
      | .pair _ r =>
        match vWswap (.pair (textVal rest) r) with
        | none => none
        | some v3 => vAssocr v3
      | _ => none

/-- The main read-and-parse loop of `wikrt_text_to_block`, with explicit
fuel (the C loop runs until the read returns no bytes; one unit of fuel
per iteration, exhaustion is a fault, never an error return).  On a
non-OK status from the chunk step it drops ops, stack, and text, and
returns the status. -/
def parseLoop (rtc : Wval → Wval) (textVal : List Nat → Wval) :
    Nat → PS → List Nat → StepR
  | 0, _, _ => .fault
  | fuel + 1, s, cps =>
    if cps.length = 0 then wikrt_fini_parse s
    else
      match setTextSlot textVal s.val (cps.drop WIKRT_PARSE_READSZ) with
      | none => .fault
      | some v1 =>
        match wikrt_step_parse rtc { s with val := v1 } (cps.take WIKRT_PARSE_READSZ) with
        | .fault => .fault
        | .err c s1 =>
          match vDrop s1.val with
          | none => .fault
          | some w1 =>
            match vDrop w1 with
            | none => .fault
            | some w2 =>
              match vDrop w2 with
              | none => .fault
              | some w3 => .err c { s1 with val := w3 }
        | .ok s1 => parseLoop rtc textVal fuel s1 (cps.drop WIKRT_PARSE_READSZ)

/-- `wikrt_text_to_block` on a register holding `(text * e)`: the text
argument is given as its codepoint list `cps` together with the unknown
representation function `textVal`; `wikrt_intro_parse` reserves two
cells and introduces the stack and the empty reversed ops list, dropping
the text argument if the reserve fails. -/
def wikrt_text_to_block (rtc : Wval → Wval) (textVal : List Nat → Wval)
    (g : List Bool) (cps : List Nat) (e : Wval) : StepR :=
  match reserve g with
  | (false, g1) =>
    match vDrop (.pair (textVal cps) e) with
    | none => .fault
    | some v1 => .err .cxfull { val := v1, p := ⟨.op, 0, [], 0⟩, g := g1 }
  | (true, g1) =>
    parseLoop rtc textVal (cps.length + 1)
      { val := vIntro .unitR (vIntro .unit (.pair (textVal cps) e)),
        p := ⟨.op, 0, [], 0⟩, g := g1 }
      cps

/-- The register keeps the three-slot parse frame over the caller rest. -/
def hasFrame (e v : Wval) : Prop :=
  ∃ a b c, v = Wval.pair a (.pair b (.pair c e))

/-- Frame invariant lifted to a fallible register result. -/
def frameO (e : Wval) : Option Wval → Prop
  | none => True
  | some v => hasFrame e v

/-- Frame invariant lifted to a step outcome. -/
def frameR (e : Wval) : StepR → Prop
  | .ok s => hasFrame e s.val
  | .err _ s => hasFrame e s.val
  | .fault => True

/-- Atomicity of a step outcome: an error return leaves exactly `e`. -/
def errAt (e : Wval) : StepR → Prop
  | .err _ s => s.val = e
  | _ => True

end Wikrt

namespace Wikrt

/-! ### Facts about the truncated operations, needed for claim C1. -/

/-- Bounds of the C11 `%` remainder for a positive divisor. -/
theorem tmod_bounds_pos (a : Int) {b : Int} (hb : 0 < b) :
    -b < a.tmod b ∧ a.tmod b < b := by
  match a, b with
  | .ofNat m, .ofNat n =>
      have hb' : (0 : Int) < ((n : Nat) : Int) := hb
      have hn : 0 < n := by exact_mod_cast hb'
      have e : Int.tmod (.ofNat m) (.ofNat n) = ((m % n : Nat) : Int) := rfl
      have h1 : ((m % n : Nat) : Int) < ((n : Nat) : Int) := by
        exact_mod_cast Nat.mod_lt m hn
      have h2 : (0 : Int) ≤ ((m % n : Nat) : Int) := Int.natCast_nonneg _
      show -((n : Nat) : Int) < Int.tmod (.ofNat m) (.ofNat n) ∧
        Int.tmod (.ofNat m) (.ofNat n) < ((n : Nat) : Int)
      rw [e]
      exact ⟨by linarith, h1⟩
  | .negSucc m, .ofNat n =>
      have hb' : (0 : Int) < ((n : Nat) : Int) := hb
      have hn : 0 < n := by exact_mod_cast hb'
      have e : Int.tmod (.negSucc m) (.ofNat n) = - (((m + 1) % n : Nat) : Int) := rfl
      have h1 : (((m + 1) % n : Nat) : Int) < ((n : Nat) : Int) := by
        exact_mod_cast Nat.mod_lt (m + 1) hn
      have h2 : (0 : Int) ≤ (((m + 1) % n : Nat) : Int) := Int.natCast_nonneg _
      show -((n : Nat) : Int) < Int.tmod (.negSucc m) (.ofNat n) ∧
        Int.tmod (.negSucc m) (.ofNat n) < ((n : Nat) : Int)
      rw [e]
      exact ⟨by linarith, by linarith⟩
  | _, .negSucc k =>
      have h := Int.negSucc_lt_zero k
      exact absurd hb (asymm h)

/-- Bounds of the C11 `%` remainder for a negative divisor. -/
theorem tmod_bounds_neg (a : Int) {b : Int} (hb : b < 0) :
    b < a.tmod b ∧ a.tmod b < -b := by
  have h0 : a.tmod b = a.tmod (-b) := (Int.tmod_neg a b).symm
  have hpos : 0 < -b := by omega
  have h1 := tmod_bounds_pos a hpos
  omega

/-- Unfolding equation for the repaired divmod. -/
theorem smallint_divmod_eq (a b : Int) :
    wikrt_smallint_divmod a b =
      if (if 0 < b then a.tmod b < 0 else 0 < a.tmod b)
      then (a.tdiv b - 1, a.tmod b + b) else (a.tdiv b, a.tmod b) := rfl

/-- The repaired divmod satisfies the division identity together with the
floored-division remainder conditions. -/
theorem smallint_divmod_spec (a b : Int) (hb : b ≠ 0) :
    a = (wikrt_smallint_divmod a b).1 * b + (wikrt_smallint_divmod a b).2 ∧
    ((wikrt_smallint_divmod a b).2 = 0 ∨
      (wikrt_smallint_divmod a b).2.sign = b.sign) ∧
    0 ≤ |(wikrt_smallint_divmod a b).2| ∧
    |(wikrt_smallint_divmod a b).2| < |b| := by
  have hid : a.tmod b + b * a.tdiv b = a := Int.tmod_add_tdiv a b
  rw [smallint_divmod_eq]
  rcases lt_or_gt_of_ne hb with hneg | hpos
  · have hbd := tmod_bounds_neg a hneg
    simp only [if_neg (by omega : ¬ (0:Int) < b)]
    by_cases hr : 0 < a.tmod b
    · simp only [if_pos hr]
      refine ⟨by linear_combination -hid, ?_, abs_nonneg _, ?_⟩
      · right
        have h1 : a.tmod b + b < 0 := by omega
        rw [Int.sign_eq_neg_one_of_neg h1, Int.sign_eq_neg_one_of_neg hneg]
      · rw [abs_of_neg (by omega : a.tmod b + b < 0), abs_of_neg hneg]; omega
    · simp only [if_neg hr]
      refine ⟨by linear_combination -hid, ?_, abs_nonneg _, ?_⟩
      · by_cases h0 : a.tmod b = 0
        · exact Or.inl h0
        · right
          have h1 : a.tmod b < 0 := by omega
          rw [Int.sign_eq_neg_one_of_neg h1, Int.sign_eq_neg_one_of_neg hneg]
      · rw [abs_of_nonpos (by omega : a.tmod b ≤ 0), abs_of_neg hneg]; omega
  · have hbd := tmod_bounds_pos a hpos
    simp only [if_pos hpos]
    by_cases hr : a.tmod b < 0
    · simp only [if_pos hr]
      refine ⟨by linear_combination -hid, ?_, abs_nonneg _, ?_⟩
      · right
        have h1 : 0 < a.tmod b + b := by omega
        rw [Int.sign_eq_one_of_pos h1, Int.sign_eq_one_of_pos hpos]
      · rw [abs_of_pos (by omega : 0 < a.tmod b + b), abs_of_pos hpos]; omega
    · simp only [if_neg hr]
      refine ⟨by linear_combination -hid, ?_, abs_nonneg _, ?_⟩
      · by_cases h0 : a.tmod b = 0
        · exact Or.inl h0
        · right
          have h1 : 0 < a.tmod b := by omega
          rw [Int.sign_eq_one_of_pos h1, Int.sign_eq_one_of_pos hpos]
      · rw [abs_of_nonneg (by omega : 0 ≤ a.tmod b), abs_of_pos hpos]; omega

/-- C1: `wikrt_int_div` implements floored division: with small integers
divisor `b` and dividend `a` on the stack as `(I(b) * (I(a) * e))` and
`b ≠ 0`, it replaces them with remainder `r` and quotient `q` such that
`a = q*b + r`, `sign(r) = sign(b)` or `r = 0`, and `0 ≤ |r| < |b|` — the C
truncated `/` and `%` results are repaired exactly when the C remainder's
sign differs from the divisor's. -/
theorem C1_int_div_floored (a b : Int) (e : Wval) (ec : Ecode) (hb : b ≠ 0) :
    ∃ q r : Int,
      wikrt_int_div ⟨.pair (.int b) (.pair (.int a) e), ec⟩ =
        ⟨.pair (.int r) (.pair (.int q) e), ec⟩ ∧
      a = q * b + r ∧ (r = 0 ∨ r.sign = b.sign) ∧ 0 ≤ |r| ∧ |r| < |b| := by
  refine ⟨(wikrt_smallint_divmod a b).1, (wikrt_smallint_divmod a b).2, ?_, ?_⟩
  · simp [wikrt_int_div, wikrt_two_ints, hb]
  · exact smallint_divmod_spec a b hb

/-- Witness for C1 at the concrete input `a = -11`, `b = 3` (the spec's S3
scenario, expecting quotient `-4` and remainder `1`). -/
theorem C1_int_div_floored_witness :
    ∃ q r : Int,
      wikrt_int_div ⟨.pair (.int 3) (.pair (.int (-11)) .unit), .ok⟩ =
        ⟨.pair (.int r) (.pair (.int q) .unit), .ok⟩ ∧
      (-11 : Int) = q * 3 + r ∧ (r = 0 ∨ r.sign = (3:Int).sign) ∧
      0 ≤ |r| ∧ |r| < |(3:Int)| :=
  C1_int_div_floored (-11) 3 .unit .ok (by decide)

end Wikrt

namespace Wikrt

/-- C6: product algebraic involutions.  On a context whose value register has
the required product shape, `wikrt_assocl` then `wikrt_assocr` is the
identity (and vice versa), `wikrt_wswap` twice is the identity, and
`wikrt_zswap` twice is the identity; the error register is untouched (no
error latched) and the operations re-thread cells without allocation. -/
theorem C6_product_involutions (a b c d : Wval) (ec : Ecode) :
    wikrt_assocr (wikrt_assocl ⟨.pair a (.pair b c), ec⟩) = ⟨.pair a (.pair b c), ec⟩ ∧
    wikrt_assocl (wikrt_assocr ⟨.pair (.pair a b) c, ec⟩) = ⟨.pair (.pair a b) c, ec⟩ ∧
    wikrt_wswap (wikrt_wswap ⟨.pair a (.pair b c), ec⟩) = ⟨.pair a (.pair b c), ec⟩ ∧
    wikrt_zswap (wikrt_zswap ⟨.pair a (.pair b (.pair c d)), ec⟩) =
      ⟨.pair a (.pair b (.pair c d)), ec⟩ :=
  ⟨rfl, rfl, rfl, rfl⟩

/-- C9: overflow and division guards.  `wikrt_int_add` and `wikrt_int_mul`
produce the exact mathematical sum/product within `[-smax, smax]`
(`WIKRT_SMALLINT_MIN = -WIKRT_SMALLINT_MAX`), latch `WIKRT_IMPL` (not
`ETYPE`) outside that range, `wikrt_int_div` with zero divisor latches
`WIKRT_EDIV0`, and adding one to a value of `WIKRT_SMALLINT_MAX` latches
`IMPL`. -/
theorem C9_int_overflow_guard (smax a b : Int) (e : Wval) :
    ((-smax ≤ a + b ∧ a + b ≤ smax) →
      wikrt_int_add smax ⟨.pair (.int a) (.pair (.int b) e), .ok⟩ =
        ⟨.pair (.int (a + b)) e, .ok⟩) ∧
    (¬ (-smax ≤ a + b ∧ a + b ≤ smax) →
      wikrt_int_add smax ⟨.pair (.int a) (.pair (.int b) e), .ok⟩ =
        ⟨.pair (.int a) (.pair (.int b) e), .impl⟩) ∧
    ((-smax ≤ a * b ∧ a * b ≤ smax) →
      wikrt_int_mul smax ⟨.pair (.int a) (.pair (.int b) e), .ok⟩ =
        ⟨.pair (.int (a * b)) e, .ok⟩) ∧
    (¬ (-smax ≤ a * b ∧ a * b ≤ smax) →
      wikrt_int_mul smax ⟨.pair (.int a) (.pair (.int b) e), .ok⟩ =
        ⟨.pair (.int a) (.pair (.int b) e), .impl⟩) ∧
    (wikrt_int_div ⟨.pair (.int 0) (.pair (.int a) e), .ok⟩ =
        ⟨.pair (.int 0) (.pair (.int a) e), .ediv0⟩) ∧
    (wikrt_int_add smax ⟨.pair (.int 1) (.pair (.int smax) e), .ok⟩ =
        ⟨.pair (.int 1) (.pair (.int smax) e), .impl⟩) := by
  refine ⟨?_, ?_, ?_, ?_, ?_, ?_⟩
  · intro h
    simp only [wikrt_int_add, wikrt_two_ints]
    rw [if_pos h]
  · intro h
    simp only [wikrt_int_add, wikrt_two_ints]
    rw [if_neg h]
    rfl
  · intro h
    simp only [wikrt_int_mul, wikrt_two_ints]
    rw [if_pos h]
  · intro h
    simp only [wikrt_int_mul, wikrt_two_ints]
    rw [if_neg h]
    rfl
  · rfl
  · simp only [wikrt_int_add, wikrt_two_ints]
    rw [if_neg (by omega : ¬ (-smax ≤ (1:Int) + smax ∧ (1:Int) + smax ≤ smax))]
    rfl

/-- Witness for C9 with `smax = 1114111` (the spec's minimum for unicode
codepoints), exercising both the in-range conjuncts and the overflow ones. -/
theorem C9_int_overflow_guard_witness :
    (((-1114111 : Int) ≤ 40 + 2 ∧ (40:Int) + 2 ≤ 1114111) →
      wikrt_int_add 1114111 ⟨.pair (.int 40) (.pair (.int 2) .unit), .ok⟩ =
        ⟨.pair (.int (40 + 2)) .unit, .ok⟩) ∧
    (¬ ((-1114111 : Int) ≤ 40 + 2 ∧ (40:Int) + 2 ≤ 1114111) →
      wikrt_int_add 1114111 ⟨.pair (.int 40) (.pair (.int 2) .unit), .ok⟩ =
        ⟨.pair (.int 40) (.pair (.int 2) .unit), .impl⟩) ∧
    (((-1114111 : Int) ≤ 40 * 2 ∧ (40:Int) * 2 ≤ 1114111) →
      wikrt_int_mul 1114111 ⟨.pair (.int 40) (.pair (.int 2) .unit), .ok⟩ =
        ⟨.pair (.int (40 * 2)) .unit, .ok⟩) ∧
    (¬ ((-1114111 : Int) ≤ 40 * 2 ∧ (40:Int) * 2 ≤ 1114111) →
      wikrt_int_mul 1114111 ⟨.pair (.int 40) (.pair (.int 2) .unit), .ok⟩ =
        ⟨.pair (.int 40) (.pair (.int 2) .unit), .impl⟩) ∧
    (wikrt_int_div ⟨.pair (.int 0) (.pair (.int 40) .unit), .ok⟩ =
        ⟨.pair (.int 0) (.pair (.int 40) .unit), .ediv0⟩) ∧
    (wikrt_int_add 1114111 ⟨.pair (.int 1) (.pair (.int 1114111) .unit), .ok⟩ =
        ⟨.pair (.int 1) (.pair (.int 1114111) .unit), .impl⟩) :=
  C9_int_overflow_guard 1114111 40 2 .unit

/-- C10: `wikrt_int_cmp` is non-destructive.  On `(I(a)*(I(b)*e))` it leaves
the whole context (value register and error register) unchanged, performs no
allocation, and reports through its out-parameter whether the inner integer
`b` is greater than, less than, or equal to the outer `a`. -/
theorem C10_int_cmp_nondestructive (a b : Int) (e : Wval) (ec : Ecode) :
    (wikrt_int_cmp ⟨.pair (.int a) (.pair (.int b) e), ec⟩).1 =
      ⟨.pair (.int a) (.pair (.int b) e), ec⟩ ∧
    ((wikrt_int_cmp ⟨.pair (.int a) (.pair (.int b) e), ec⟩).2 = some .gt ↔ b > a) ∧
    ((wikrt_int_cmp ⟨.pair (.int a) (.pair (.int b) e), ec⟩).2 = some .lt ↔ b < a) ∧
    ((wikrt_int_cmp ⟨.pair (.int a) (.pair (.int b) e), ec⟩).2 = some .eq ↔ b = a) := by
  refine ⟨rfl, ?_, ?_, ?_⟩ <;>
  · simp only [wikrt_int_cmp, wikrt_two_ints]
    split_ifs with h1 h2 <;> simp_all <;> omega

end Wikrt

namespace Wikrt

mutual

/-- The independent size walk agrees with the copy's allocations, node by
node. -/
theorem vsize_eq_copyAlloc (v : Wval) : wikrt_vsize v = wikrt_copyAlloc v := by
  cases v with
  | unit => rfl
  | unitL => rfl
  | unitR => rfl
  | int n => rfl
  | pair a b => simp only [wikrt_vsize, wikrt_copyAlloc,
      vsize_eq_copyAlloc a, vsize_eq_copyAlloc b]
  | pairL a b => simp only [wikrt_vsize, wikrt_copyAlloc,
      vsize_eq_copyAlloc a, vsize_eq_copyAlloc b]
  | pairR a b => simp only [wikrt_vsize, wikrt_copyAlloc,
      vsize_eq_copyAlloc a, vsize_eq_copyAlloc b]
  | deepsum p v => simp only [wikrt_vsize, wikrt_copyAlloc, vsize_eq_copyAlloc v]
  | block f ops => simp only [wikrt_vsize, wikrt_copyAlloc, vsize_eq_copyAlloc ops]
  | opval h v => simp only [wikrt_vsize, wikrt_copyAlloc, vsize_eq_copyAlloc v]
  | optok name => rfl
  | sealSm t v => simp only [wikrt_vsize, wikrt_copyAlloc, vsize_eq_copyAlloc v]
  | sealG name v => simp only [wikrt_vsize, wikrt_copyAlloc, vsize_eq_copyAlloc v]
  | binary next bytes =>
      simp only [wikrt_vsize, wikrt_copyAlloc, vsize_eq_copyAlloc next]
      omega
  | array next elems =>
      simp only [wikrt_vsize, wikrt_copyAlloc, vsize_eq_copyAlloc next,
        vsizeList_eq_copyAllocList elems]
      omega
  | utf8 v => simp only [wikrt_vsize, wikrt_copyAlloc, vsize_eq_copyAlloc v]
  | trash f v => simp only [wikrt_vsize, wikrt_copyAlloc, vsize_eq_copyAlloc v]
  | pend v => simp only [wikrt_vsize, wikrt_copyAlloc, vsize_eq_copyAlloc v]
  | textC next c bytes => rfl

/-- List version of `vsize_eq_copyAlloc` for array slots. -/
theorem vsizeList_eq_copyAllocList (l : List Wval) :
    wikrt_vsizeList l = wikrt_copyAllocList l := by
  cases l with
  | nil => rfl
  | cons v vs => simp only [wikrt_vsizeList, wikrt_copyAllocList,
      vsize_eq_copyAlloc v, vsizeList_eq_copyAllocList vs]

end

mutual

/-- The structural copy rebuilds an identical value. -/
theorem copy_r_id (v : Wval) : wikrt_copy_r v = v := by
  cases v with
  | unit => rfl
  | unitL => rfl
  | unitR => rfl
  | int n => rfl
  | pair a b => simp only [wikrt_copy_r, copy_r_id a, copy_r_id b]
  | pairL a b => simp only [wikrt_copy_r, copy_r_id a, copy_r_id b]
  | pairR a b => simp only [wikrt_copy_r, copy_r_id a, copy_r_id b]
  | deepsum p v => simp only [wikrt_copy_r, copy_r_id v]
  | block f ops => simp only [wikrt_copy_r, copy_r_id ops]
  | opval h v => simp only [wikrt_copy_r, copy_r_id v]
  | optok name => rfl
  | sealSm t v => simp only [wikrt_copy_r, copy_r_id v]
  | sealG name v => simp only [wikrt_copy_r, copy_r_id v]
  | binary next bytes => simp only [wikrt_copy_r, copy_r_id next]
  | array next elems => simp only [wikrt_copy_r, copy_r_id next, copy_rList_id elems]
  | utf8 v => simp only [wikrt_copy_r, copy_r_id v]
  | trash f v => simp only [wikrt_copy_r, copy_r_id v]
  | pend v => simp only [wikrt_copy_r, copy_r_id v]
  | textC next c bytes => rfl

/-- List version of `copy_r_id` for array slots. -/
theorem copy_rList_id (l : List Wval) : wikrt_copy_rList l = l := by
  cases l with
  | nil => rfl
  | cons v vs => simp only [wikrt_copy_rList, copy_r_id v, copy_rList_id vs]

end

/-- C7: copy size-estimate exactness.  For every value in the domain of the
copy walk, `wikrt_vsize` equals exactly the bytes the copy allocates, the
copy is structurally identical to the original (hence
`vsize(copy(v)) = vsize(v)`, and GC compaction — which copies roots through
the same `wikrt_copy_r` walk — leaves `vsize` unchanged), and whenever
`wikrt_copy_m` does not take the size bypass its precomputed estimate equals
the post-copy allocation delta, so the abort branch is unreachable. -/
theorem C7_vsize_exact (v : Wval) (h : supported v = true) :
    wikrt_vsize v = wikrt_copyAlloc v ∧
    wikrt_copy_r v = v ∧
    wikrt_vsize (wikrt_copy_r v) = wikrt_vsize v ∧
    wikrt_copy_m_est v = wikrt_copy_m_act v := by
  refine ⟨vsize_eq_copyAlloc v, copy_r_id v, ?_, ?_⟩
  · rw [copy_r_id v]
  · simp only [wikrt_copy_m_est, wikrt_copy_m_act, vsize_eq_copyAlloc v]
    omega

/-- Witness for C7 at a concrete compound value: a block holding an affine
flag over an array chunk of two slots chained onto a binary chunk. -/
theorem C7_vsize_exact_witness :
    supported (Wval.block ⟨true, false, false, false⟩
      (.array (.binary .unitR [1, 2, 3]) [.int 7, .pair .unit .unitR])) = true ∧
    (wikrt_vsize (Wval.block ⟨true, false, false, false⟩
        (.array (.binary .unitR [1, 2, 3]) [.int 7, .pair .unit .unitR])) =
      wikrt_copyAlloc (Wval.block ⟨true, false, false, false⟩
        (.array (.binary .unitR [1, 2, 3]) [.int 7, .pair .unit .unitR])) ∧
    wikrt_copy_r (Wval.block ⟨true, false, false, false⟩
        (.array (.binary .unitR [1, 2, 3]) [.int 7, .pair .unit .unitR])) =
      Wval.block ⟨true, false, false, false⟩
        (.array (.binary .unitR [1, 2, 3]) [.int 7, .pair .unit .unitR]) ∧
    wikrt_vsize (wikrt_copy_r (Wval.block ⟨true, false, false, false⟩
        (.array (.binary .unitR [1, 2, 3]) [.int 7, .pair .unit .unitR]))) =
      wikrt_vsize (Wval.block ⟨true, false, false, false⟩
        (.array (.binary .unitR [1, 2, 3]) [.int 7, .pair .unit .unitR])) ∧
    wikrt_copy_m_est (Wval.block ⟨true, false, false, false⟩
        (.array (.binary .unitR [1, 2, 3]) [.int 7, .pair .unit .unitR])) =
      wikrt_copy_m_act (Wval.block ⟨true, false, false, false⟩
        (.array (.binary .unitR [1, 2, 3]) [.int 7, .pair .unit .unitR]))) :=
  ⟨rfl, C7_vsize_exact _ rfl⟩

/-- C4: substructural enforcement.  Copying a value whose visible summary is
affine latches `WIKRT_ETYPE` only after the copy already sits on the stack
above the original; dropping one whose visible summary is relevant latches
`WIKRT_ETYPE` only after the value has been removed; and an `OPVAL` wrapper
with `LAZYKF` set hides its inner substructure from both scans, so no error
is raised for hidden flags. -/
theorem C4_substructural_enforcement (v w rest : Wval) :
    ((ssOf v).aff = true →
      wikrt_copy ⟨.pair v rest, .ok⟩ = ⟨.pair v (.pair v rest), .etype⟩) ∧
    ((ssOf v).rel = true →
      wikrt_drop ⟨.pair v rest, .ok⟩ = ⟨rest, .etype⟩) ∧
    ssOf (.opval true w) = SSv.nil ∧
    wikrt_copy ⟨.pair (.opval true w) rest, .ok⟩ =
      ⟨.pair (.opval true w) (.pair (.opval true w) rest), .ok⟩ ∧
    wikrt_drop ⟨.pair (.opval true w) rest, .ok⟩ = ⟨rest, .ok⟩ := by
  refine ⟨?_, ?_, rfl, ?_, ?_⟩
  · intro haff
    simp only [wikrt_copy, copy_r_id, SSv.copyable, haff, Bool.not_true,
      Bool.false_and, if_neg]
    rfl
  · intro hrel
    simp only [wikrt_drop, SSv.droppable, hrel, Bool.not_true,
      Bool.false_and, if_neg]
    rfl
  · simp only [wikrt_copy, copy_r_id]
    rfl
  · simp only [wikrt_drop]
    rfl

/-- Witness for C4 using an affine-relevant block (so both the copy and the
drop conjuncts fire) and an affine block hidden under `OPVAL(LAZYKF)`. -/
theorem C4_substructural_enforcement_witness :
    ((ssOf (.block ⟨true, true, false, false⟩ .unitR)).aff = true →
      wikrt_copy ⟨.pair (.block ⟨true, true, false, false⟩ .unitR) .unit, .ok⟩ =
        ⟨.pair (.block ⟨true, true, false, false⟩ .unitR)
          (.pair (.block ⟨true, true, false, false⟩ .unitR) .unit), .etype⟩) ∧
    ((ssOf (.block ⟨true, true, false, false⟩ .unitR)).rel = true →
      wikrt_drop ⟨.pair (.block ⟨true, true, false, false⟩ .unitR) .unit, .ok⟩ =
        ⟨.unit, .etype⟩) ∧
    ssOf (.opval true (.block ⟨true, true, false, false⟩ .unitR)) = SSv.nil ∧
    wikrt_copy ⟨.pair (.opval true (.block ⟨true, true, false, false⟩ .unitR)) .unit, .ok⟩ =
      ⟨.pair (.opval true (.block ⟨true, true, false, false⟩ .unitR))
        (.pair (.opval true (.block ⟨true, true, false, false⟩ .unitR)) .unit), .ok⟩ ∧
    wikrt_drop ⟨.pair (.opval true (.block ⟨true, true, false, false⟩ .unitR)) .unit, .ok⟩ =
      ⟨.unit, .ok⟩ :=
  C4_substructural_enforcement (.block ⟨true, true, false, false⟩ .unitR)
    (.block ⟨true, true, false, false⟩ .unitR) .unit

end Wikrt

namespace Wikrt

/-- A latched (non-OK) error code makes `wikrt_set_error` a no-op. -/
theorem set_error_latched (cx : Wcx) (e : Ecode) (h : cx.ecode ≠ .ok) :
    wikrt_set_error cx e = cx := by
  simp [wikrt_set_error, wikrt_has_error, h]

/-- C3 counterexample: with `EDIV0` latched and two integers on the stack,
`wikrt_int_add` still rewrites the value register (it checks only the value
shape, never the error register), so subsequent operations are not no-ops. -/
theorem C3_sticky_noop_counterexample :
    wikrt_has_error ⟨.pair (.int 1) (.pair (.int 2) .unit), .ediv0⟩ = true ∧
    (wikrt_int_add 1114111 ⟨.pair (.int 1) (.pair (.int 2) .unit), .ediv0⟩).val ≠
      (⟨.pair (.int 1) (.pair (.int 2) .unit), .ediv0⟩ : Wcx).val ∧
    (wikrt_int_add 1114111 ⟨.pair (.int 1) (.pair (.int 2) .unit), .ediv0⟩).ecode =
      .ediv0 := by
  refine ⟨rfl, ?_, rfl⟩
  intro h
  have h3 : (wikrt_int_add 1114111
      ⟨.pair (.int 1) (.pair (.int 2) .unit), .ediv0⟩).val =
      .pair (.int 3) .unit := rfl
  rw [h3] at h
  simp at h

/-- C3 amended: error codes are sticky in the sense that (i) once a non-OK
code is latched, any later `wikrt_set_error` with a different code leaves
the first code in place, (ii) no subsequent operation ever changes the
latched code — every operation reports it unchanged — until (iii)
`wikrt_cx_reset` clears the register back to OK.  Operations are however
not value-register no-ops: primitives that pass their shape test still
mutate the stack (see the counterexample). -/
theorem C3_sticky_errors_amended :
    (∀ (cx : Wcx) (e : Ecode), cx.ecode ≠ .ok → wikrt_set_error cx e = cx) ∧
    (∀ (cx : Wcx) (smax : Int), cx.ecode ≠ .ok →
      ((wikrt_int_add smax cx).ecode = cx.ecode ∧
       (wikrt_int_mul smax cx).ecode = cx.ecode ∧
       (wikrt_int_div cx).ecode = cx.ecode ∧
       (wikrt_int_neg cx).ecode = cx.ecode ∧
       (wikrt_int_cmp cx).1.ecode = cx.ecode ∧
       (wikrt_assocl cx).ecode = cx.ecode ∧
       (wikrt_assocr cx).ecode = cx.ecode ∧
       (wikrt_wswap cx).ecode = cx.ecode ∧
       (wikrt_zswap cx).ecode = cx.ecode ∧
       (wikrt_copy cx).ecode = cx.ecode ∧
       (wikrt_drop cx).ecode = cx.ecode)) ∧
    (∀ cx : Wcx, (wikrt_cx_reset cx).ecode = .ok) := by
  refine ⟨set_error_latched, ?_, fun _ => rfl⟩
  intro cx smax h
  have hse : ∀ (c : Wcx) (e : Ecode), c.ecode = cx.ecode →
      (wikrt_set_error c e).ecode = cx.ecode := by
    intro c e hc
    rw [set_error_latched c e (by rw [hc]; exact h)]
    exact hc
  refine ⟨?_, ?_, ?_, ?_, ?_, ?_, ?_, ?_, ?_, ?_, ?_⟩
  · unfold wikrt_int_add
    split
    · split
      · rfl
      · exact hse _ _ rfl
    · exact hse _ _ rfl
  · unfold wikrt_int_mul
    split
    · split
      · rfl
      · exact hse _ _ rfl
    · exact hse _ _ rfl
  · unfold wikrt_int_div
    split
    · split
      · exact hse _ _ rfl
      · rfl
    · exact hse _ _ rfl
  · unfold wikrt_int_neg
    split
    · rfl
    · exact hse _ _ rfl
  · unfold wikrt_int_cmp
    split
    · rfl
    · exact hse _ _ rfl
  · unfold wikrt_assocl
    split
    · rfl
    · exact hse _ _ rfl
  · unfold wikrt_assocr
    split
    · rfl
    · exact hse _ _ rfl
  · unfold wikrt_wswap
    split
    · rfl
    · exact hse _ _ rfl
  · unfold wikrt_zswap
    split
    · rfl
    · exact hse _ _ rfl
  · unfold wikrt_copy
    split
    · split
      · rfl
      · exact hse _ _ rfl
    · exact hse _ _ rfl
  · unfold wikrt_drop
    split
    · split
      · rfl
      · exact hse _ _ rfl
    · exact hse _ _ rfl

/-- Witness for the amended C3 at a concrete latched context. -/
theorem C3_sticky_errors_amended_witness :
    wikrt_set_error ⟨.pair (.int 1) (.pair (.int 2) .unit), .ediv0⟩ .etype =
      ⟨.pair (.int 1) (.pair (.int 2) .unit), .ediv0⟩ ∧
    (wikrt_int_add 1114111 ⟨.pair (.int 1) (.pair (.int 2) .unit), .ediv0⟩).ecode =
      Ecode.ediv0 ∧
    (wikrt_cx_reset ⟨.pair (.int 1) (.pair (.int 2) .unit), .ediv0⟩).ecode = .ok :=
  ⟨C3_sticky_errors_amended.1 ⟨.pair (.int 1) (.pair (.int 2) .unit), .ediv0⟩
      .etype (by decide),
   (C3_sticky_errors_amended.2.1 ⟨.pair (.int 1) (.pair (.int 2) .unit), .ediv0⟩
      1114111 (by decide)).1,
   C3_sticky_errors_amended.2.2 ⟨.pair (.int 1) (.pair (.int 2) .unit), .ediv0⟩⟩

end Wikrt

namespace Wikrt

/-- The bounded probe finds the `UR` terminator of a proper ops list exactly
when the list length is within the hop budget. -/
theorem scanSteps_proper : ∀ (eff : Nat) (ops : Wval) (n : Nat),
    opsLen ops = some n → scanSteps eff ops = some (decide (n ≤ eff))
  | eff, .unitR, n, h => by
      simp only [opsLen, Option.some.injEq] at h
      subst h
      cases eff <;> rfl
  | eff, .pairL hd tl, n, h => by
      simp only [opsLen, Option.map_eq_some'] at h
      obtain ⟨m, hm, hn⟩ := h
      subst hn
      cases eff with
      | zero => simp [scanSteps]
      | succ k =>
          rw [show scanSteps (k + 1) (.pairL hd tl) = scanSteps k tl from rfl,
            scanSteps_proper k tl m hm]
          simp [Nat.succ_le_succ_iff]
  | _, .unit, _, h => by simp [opsLen] at h
  | _, .unitL, _, h => by simp [opsLen] at h
  | _, .int _, _, h => by simp [opsLen] at h
  | _, .pair _ _, _, h => by simp [opsLen] at h
  | _, .pairR _ _, _, h => by simp [opsLen] at h
  | _, .deepsum _ _, _, h => by simp [opsLen] at h
  | _, .block _ _, _, h => by simp [opsLen] at h
  | _, .opval _ _, _, h => by simp [opsLen] at h
  | _, .optok _, _, h => by simp [opsLen] at h
  | _, .sealSm _ _, _, h => by simp [opsLen] at h
  | _, .sealG _ _, _, h => by simp [opsLen] at h
  | _, .binary _ _, _, h => by simp [opsLen] at h
  | _, .array _ _, _, h => by simp [opsLen] at h
  | _, .utf8 _, _, h => by simp [opsLen] at h
  | _, .trash _ _, _, h => by simp [opsLen] at h
  | _, .pend _, _, h => by simp [opsLen] at h
  | _, .textC _ _ _, _, h => by simp [opsLen] at h

/-- A proper ops list concatenates with anything. -/
theorem opsAppend_proper : ∀ (aops : Wval) (n : Nat),
    opsLen aops = some n → ∀ bops : Wval, ∃ o, opsAppend aops bops = some o
  | .unitR, n, _, bops => ⟨bops, rfl⟩
  | .pairL hd tl, n, h, bops => by
      simp only [opsLen, Option.map_eq_some'] at h
      obtain ⟨m, hm, _⟩ := h
      obtain ⟨o, ho⟩ := opsAppend_proper tl m hm bops
      exact ⟨.pairL hd o, by simp [opsAppend, ho]⟩
  | .unit, _, h, _ => by simp [opsLen] at h
  | .unitL, _, h, _ => by simp [opsLen] at h
  | .int _, _, h, _ => by simp [opsLen] at h
  | .pair _ _, _, h, _ => by simp [opsLen] at h
  | .pairR _ _, _, h, _ => by simp [opsLen] at h
  | .deepsum _ _, _, h, _ => by simp [opsLen] at h
  | .block _ _, _, h, _ => by simp [opsLen] at h
  | .opval _ _, _, h, _ => by simp [opsLen] at h
  | .optok _, _, h, _ => by simp [opsLen] at h
  | .sealSm _ _, _, h, _ => by simp [opsLen] at h
  | .sealG _ _, _, h, _ => by simp [opsLen] at h
  | .binary _ _, _, h, _ => by simp [opsLen] at h
  | .array _ _, _, h, _ => by simp [opsLen] at h
  | .utf8 _, _, h, _ => by simp [opsLen] at h
  | .trash _ _, _, h, _ => by simp [opsLen] at h
  | .pend _, _, h, _ => by simp [opsLen] at h
  | .textC _ _ _, _, h, _ => by simp [opsLen] at h

/-- C8: the compose algorithm.  For blocks `[a→b]` and `[b→c]` on the stack
(undecorated, so step 1 of the algorithm leaves them unchanged),
`wikrt_compose` probes the left operand's ops list for its `UR` terminator
in at most `SMALL_FN_LIMIT` = 15 hops; within the limit it splices the
right operand's ops list in place of the terminator and ors the two flag
words; past the limit it rewrites the left operand as `[[block] inline]`
and retries, splicing the right list behind the quoted block and the inline
op, with the flags of the rewritten (empty-flag) left operand ored in. -/
theorem C8_compose_algorithm (af bf : BFlags) (aops bops rest : Wval) (n : Nat)
    (hau : af.unsafeAttr = false) (hbu : bf.unsafeAttr = false)
    (hlen : opsLen aops = some n) :
    scanSteps SMALL_FN_LIMIT aops = some (decide (n ≤ SMALL_FN_LIMIT)) ∧
    (n ≤ SMALL_FN_LIMIT → ∃ o, opsAppend aops bops = some o ∧
      wikrt_compose ⟨.pair (.block af aops) (.pair (.block bf bops) rest), .ok⟩ =
        some ⟨.pair (.block (bf.or af) o) rest, .ok⟩) ∧
    (SMALL_FN_LIMIT < n →
      wikrt_compose ⟨.pair (.block af aops) (.pair (.block bf bops) rest), .ok⟩ =
        some ⟨.pair (.block (bf.or BFlags.none)
          (.pairL (.opval true (.block af aops))
            (.pairL (.int ACCEL_INLINE) bops))) rest, .ok⟩) := by
  have hscan := scanSteps_proper SMALL_FN_LIMIT aops n hlen
  refine ⟨hscan, ?_, ?_⟩
  · intro hle
    obtain ⟨o, ho⟩ := opsAppend_proper aops n hlen bops
    refine ⟨o, ho, ?_⟩
    simp only [wikrt_compose, hideDecor, hau, hbu, Bool.false_eq_true,
      if_neg, ite_false]
    rw [hscan]
    simp [decide_eq_true hle, ho]
  · intro hgt
    simp only [wikrt_compose, hideDecor, hau, hbu, Bool.false_eq_true,
      if_neg, ite_false]
    rw [hscan]
    have : decide (n ≤ SMALL_FN_LIMIT) = false := by
      simp [Nat.not_le_of_lt hgt]
    rw [this]
    simp [opsAppend, quoteInlineOps]

/-- Witness for C8 at a one-op left block and empty right block. -/
theorem C8_compose_algorithm_witness :
    scanSteps SMALL_FN_LIMIT (.pairL (.int 1) .unitR) =
      some (decide (1 ≤ SMALL_FN_LIMIT)) ∧
    (1 ≤ SMALL_FN_LIMIT → ∃ o, opsAppend (.pairL (.int 1) .unitR) .unitR = some o ∧
      wikrt_compose ⟨.pair (.block BFlags.none (.pairL (.int 1) .unitR))
          (.pair (.block ⟨true, false, false, false⟩ .unitR) .unit), .ok⟩ =
        some ⟨.pair (.block ((⟨true, false, false, false⟩ : BFlags).or BFlags.none) o)
          .unit, .ok⟩) ∧
    (SMALL_FN_LIMIT < 1 →
      wikrt_compose ⟨.pair (.block BFlags.none (.pairL (.int 1) .unitR))
          (.pair (.block ⟨true, false, false, false⟩ .unitR) .unit), .ok⟩ =
        some ⟨.pair (.block ((⟨true, false, false, false⟩ : BFlags).or BFlags.none)
          (.pairL (.opval true (.block BFlags.none (.pairL (.int 1) .unitR)))
            (.pairL (.int ACCEL_INLINE) .unitR))) .unit, .ok⟩) :=
  C8_compose_algorithm BFlags.none ⟨true, false, false, false⟩
    (.pairL (.int 1) .unitR) .unitR .unit 1 rfl rfl rfl

end Wikrt

namespace Wikrt

/-- A successful one-byte read uncovers one cons cell of the denotation. -/
theorem denote_binary_cons (next : Wval) (b : Nat) (bs : List Nat) :
    denote (.binary next (b :: bs)) =
      .inl (.pair (.int b) (denote (if bs.isEmpty then next else .binary next bs))) := by
  cases bs <;> rfl

/-- A successful one-byte read uncovers one cons cell of the denotation. -/
theorem readBin1_got (w : Wval) (b : Int) (w1 : Wval) (h : readBin1 w = .got b w1) :
    denote w = .inl (.pair (.int b) (denote w1)) ∧ 0 ≤ b ∧ b ≤ 255 := by
  unfold readBin1 at h
  split at h
  · split at h
    · split at h
      · rename_i hrange
        injection h with h1 h2
        subst h1; subst h2
        exact ⟨rfl, hrange⟩
      · exact ReadB.noConfusion h
    · exact ReadB.noConfusion h
  · split at h
    · split at h
      · rename_i hrange
        injection h with h1 h2
        subst h1; subst h2
        refine ⟨denote_binary_cons _ _ _, Int.natCast_nonneg _, ?_⟩
        exact_mod_cast hrange
      · exact ReadB.noConfusion h
    · exact ReadB.noConfusion h
  · exact ReadB.noConfusion h
  · exact ReadB.noConfusion h

/-- A clean zero-byte read happens only at the list terminator. -/
theorem readBin1_done (w : Wval) (h : readBin1 w = .done) : w = .unitR := by
  unfold readBin1 at h
  split at h
  · split at h
    · split at h
      · exact ReadB.noConfusion h
      · exact ReadB.noConfusion h
    · exact ReadB.noConfusion h
  · split at h
    · split at h
      · exact ReadB.noConfusion h
      · exact ReadB.noConfusion h
    · exact ReadB.noConfusion h
  · rfl
  · exact ReadB.noConfusion h

/-- A successful `n`-byte read uncovers `n` byte cons cells of the
denotation, all within byte range. -/
theorem readBinN_denote (n : Nat) : ∀ (w : Wval) (bs : List Int) (w2 : Wval),
    readBinN n w = some (bs, w2) →
    denote w = denoteBytesI bs (denote w2) ∧ bs.length = n ∧
      ∀ b ∈ bs, 0 ≤ b ∧ b ≤ 255 := by
  induction n with
  | zero =>
      intro w bs w2 h
      simp only [readBinN, Option.some.injEq, Prod.mk.injEq] at h
      obtain ⟨h1, h2⟩ := h
      subst h1; subst h2
      exact ⟨rfl, rfl, by simp⟩
  | succ n ih =>
      intro w bs w2 h
      rw [show readBinN (n + 1) w = (match readBin1 w with
        | .got b v1 => (readBinN n v1).map (fun p => (b :: p.1, p.2))
        | _ => none) from rfl] at h
      cases hr : readBin1 w with
      | got b v1 =>
          rw [hr] at h
          rw [Option.map_eq_some'] at h
          obtain ⟨⟨cs, r⟩, hread, heq⟩ := h
          injection heq with h1 h2
          subst h2
          obtain ⟨hd, hl, hb⟩ := ih v1 cs r hread
          obtain ⟨hdw, hbr⟩ := readBin1_got w b v1 hr
          subst h1
          refine ⟨?_, by simp [hl], ?_⟩
          · rw [hdw, hd]; rfl
          · intro x hx
            rcases List.mem_cons.mp hx with rfl | hx
            · exact hbr
            · exact hb x hx
      | done => rw [hr] at h; exact Option.noConfusion h
      | bad => rw [hr] at h; exact Option.noConfusion h

/-- Wrapping any value denotes as one explicit sum layer. -/
theorem denote_wrap (d : Bool) (w : Wval) :
    denote (wikrt_wrap_sum_v d w) =
      (if d then DVal.inl (denote w) else DVal.inr (denote w)) := by
  cases w <;> cases d <;> rfl

/-- Unfolding the decoder by one successful step. -/
theorem utf8Den_decodes (d : DVal) (cp : Int) (rest : DVal)
    (h : utf8DenStep d = some (cp, rest)) :
    utf8Den d = .inl (.pair (.int cp) (utf8Den rest)) := by
  conv_lhs => unfold utf8Den
  split
  · rename_i cp' rest' h'
    rw [h] at h'
    injection h' with hx
    injection hx with hx1 hx2
    rw [hx1, hx2]
  · rename_i h'
    rw [h] at h'
    exact Option.noConfusion h'

/-- Head byte of a denoted byte chain. -/
theorem dHeadByte_chain (b : Int) (bs : List Int) (d : DVal)
    (hb : 0 ≤ b ∧ b ≤ 255) :
    dHeadByte (denoteBytesI (b :: bs) d) = some (b, denoteBytesI bs d) := by
  show (if 0 ≤ b ∧ b ≤ 255 then some (b, denoteBytesI bs d) else none) = _
  rw [if_pos hb]

/-- The decoder consumes exactly one well-formed codepoint from a byte
chain whose length matches the first byte's sequence length. -/
theorem utf8DenStep_chain (b1 : Int) (bs : List Int) (d : DVal)
    (hb1 : 0 ≤ b1 ∧ b1 ≤ 255) (hlen : bs.length = readcpSize b1 - 1)
    (hbs : ∀ b ∈ bs, 0 ≤ b ∧ b ≤ 255) :
    utf8DenStep (denoteBytesI (b1 :: bs) d) = some (readcpVal b1 bs, d) := by
  unfold utf8DenStep
  rw [dHeadByte_chain b1 bs d hb1]
  dsimp only
  by_cases h1 : b1 < 0x80
  · have hk : readcpSize b1 = 1 := by simp [readcpSize, h1]
    have hnil : bs = [] := List.eq_nil_of_length_eq_zero (by rw [hlen, hk])
    subst hnil
    rw [if_pos hk]
    rfl
  · by_cases h2 : b1 < 0xE0
    · have hk : readcpSize b1 = 2 := by simp [readcpSize, h1, h2]
      rw [hk] at hlen
      rcases bs with _ | ⟨b2, _ | ⟨b3, rest⟩⟩
      · simp at hlen
      · rw [if_neg (by rw [hk]; decide), if_pos hk]
        rw [dHeadByte_chain b2 [] d (hbs b2 (by simp))]
        rfl
      · simp at hlen
    · by_cases h3 : b1 < 0xF0
      · have hk : readcpSize b1 = 3 := by simp [readcpSize, h1, h2, h3]
        rw [hk] at hlen
        rcases bs with _ | ⟨b2, _ | ⟨b3, _ | ⟨b4, rest⟩⟩⟩
        · simp at hlen
        · simp at hlen
        · rw [if_neg (by rw [hk]; decide), if_neg (by rw [hk]; decide), if_pos hk]
          rw [dHeadByte_chain b2 [b3] d (hbs b2 (by simp))]
          dsimp only
          rw [dHeadByte_chain b3 [] d (hbs b3 (by simp))]
          rfl
        · simp at hlen
      · have hk : readcpSize b1 = 4 := by simp [readcpSize, h1, h2, h3]
        rw [hk] at hlen
        rcases bs with _ | ⟨b2, _ | ⟨b3, _ | ⟨b4, _ | ⟨b5, rest⟩⟩⟩⟩
        · simp at hlen
        · simp at hlen
        · simp at hlen
        · rw [if_neg (by rw [hk]; decide), if_neg (by rw [hk]; decide),
            if_neg (by rw [hk]; decide)]
          rw [dHeadByte_chain b2 [b3, b4] d (hbs b2 (by simp))]
          dsimp only
          rw [dHeadByte_chain b3 [b4] d (hbs b3 (by simp))]
          dsimp only
          rw [dHeadByte_chain b4 [] d (hbs b4 (by simp))]
          rfl
        · simp at hlen

/-- Decoding one codepoint off the front of a well-formed byte chain. -/
theorem utf8Den_step (b1 : Int) (bs : List Int) (d : DVal)
    (hb1 : 0 ≤ b1 ∧ b1 ≤ 255) (hlen : bs.length = readcpSize b1 - 1)
    (hbs : ∀ b ∈ bs, 0 ≤ b ∧ b ≤ 255) :
    utf8Den (denoteBytesI (b1 :: bs) d) =
      .inl (.pair (.int (readcpVal b1 bs)) (utf8Den d)) :=
  utf8Den_decodes _ _ _ (utf8DenStep_chain b1 bs d hb1 hlen hbs)

end Wikrt

namespace Wikrt

/-- Shallow unwrap of a `PL` cell is pure tag arithmetic. -/
theorem unwrapShallow_pairL (a b : Wval) :
    unwrapShallow (.pairL a b) = some (true, .pair a b) := rfl

/-- Decoding the empty text denotes the empty list. -/
theorem utf8Den_inrUnit : utf8Den (.inr .unit) = .inr .unit := by
  conv_lhs => unfold utf8Den
  split
  · rename_i cp' rest' h'
    rw [show utf8DenStep (.inr .unit) = none from rfl] at h'
    exact Option.noConfusion h'
  · rfl

/-- C5: sum wrap/unwrap round trip.  Whenever `wikrt_unwrap_sum` succeeds
with tag `t` and payload `v1`, re-wrapping with the returned tag yields a
value observationally equivalent to the original (equal denotations: the
original sum tag is restored), including the cases where the unwrap first
expands one element out of an `ARRAY`, `BINARY`, or `UTF8` chunk; on
shallow `PL`/`PR`/`UL`/`UR` values the round trip is the exact identity,
pure tag arithmetic. -/
theorem C5_sum_roundtrip (v v1 : Wval) (t : Bool)
    (h : wikrt_unwrap_sum_v v = some (t, v1)) :
    denote (wikrt_wrap_sum_v t v1) = denote v ∧
    (shallowSum v = true → wikrt_wrap_sum_v t v1 = v) := by
  unfold wikrt_unwrap_sum_v at h
  cases hs : unwrapShallow v with
  | some r =>
      rw [hs] at h
      injection h with hr
      subst hr
      unfold unwrapShallow at hs
      split at hs
      · -- PL
        injection hs with hx
        injection hx with hx1 hx2
        subst hx1; subst hx2
        exact ⟨rfl, fun _ => rfl⟩
      · -- PR
        injection hs with hx
        injection hx with hx1 hx2
        subst hx1; subst hx2
        exact ⟨rfl, fun _ => rfl⟩
      · -- UL
        injection hs with hx
        injection hx with hx1 hx2
        subst hx1; subst hx2
        exact ⟨rfl, fun _ => rfl⟩
      · -- UR
        injection hs with hx
        injection hx with hx1 hx2
        subst hx1; subst hx2
        exact ⟨rfl, fun _ => rfl⟩
      · -- DEEPSUM, path [d]
        injection hs with hx
        injection hx with hx1 hx2
        subst hx1; subst hx2
        refine ⟨?_, fun hf => Bool.noConfusion hf⟩
        rw [denote_wrap]
        rename_i d w
        cases d <;> rfl
      · -- DEEPSUM, longer path
        injection hs with hx
        injection hx with hx1 hx2
        subst hx1; subst hx2
        exact ⟨rfl, fun hf => Bool.noConfusion hf⟩
      · -- not a shallow sum
        exact Option.noConfusion hs
  | none =>
      rw [hs] at h
      cases hE : expandSum v with
      | none => rw [hE] at h; exact Option.noConfusion h
      | some vx =>
          rw [hE] at h
          replace h : unwrapShallow vx = some (t, v1) := h
          unfold expandSum at hE
          split at hE
          · -- ARRAY chunk
            rename_i next e es
            injection hE with hx
            subst hx
            rw [unwrapShallow_pairL] at h
            injection h with hx
            injection hx with hx1 hx2
            subst hx1; subst hx2
            refine ⟨?_, fun hf => Bool.noConfusion hf⟩
            cases es with
            | nil => rfl
            | cons c cs => rfl
          · -- BINARY chunk
            rename_i next b bs
            injection hE with hx
            subst hx
            rw [unwrapShallow_pairL] at h
            injection h with hx
            injection hx with hx1 hx2
            subst hx1; subst hx2
            refine ⟨?_, fun hf => Bool.noConfusion hf⟩
            cases bs with
            | nil => rfl
            | cons c cs => rfl
          · -- UTF8 chunk
            rename_i w
            split at hE
            · -- clean end of text
              rename_i hr
              injection hE with hx
              subst hx
              have hw := readBin1_done w hr
              subst hw
              rw [show unwrapShallow Wval.unitR = some (false, .unit) from rfl] at h
              injection h with hx
              injection hx with hx1 hx2
              subst hx1; subst hx2
              refine ⟨?_, fun hf => Bool.noConfusion hf⟩
              show DVal.inr .unit = utf8Den (.inr .unit)
              exact utf8Den_inrUnit.symm
            · -- one codepoint read
              rename_i b1 w1 hr
              split at hE
              · rename_i bs2 w2 hN
                injection hE with hx
                subst hx
                rw [unwrapShallow_pairL] at h
                injection h with hx
                injection hx with hx1 hx2
                subst hx1; subst hx2
                obtain ⟨hdw, hb1⟩ := readBin1_got w b1 w1 hr
                obtain ⟨hd1, hlen, hbs⟩ :=
                  readBinN_denote (readcpSize b1 - 1) w1 bs2 w2 hN
                refine ⟨?_, fun hf => Bool.noConfusion hf⟩
                show DVal.inl (.pair (.int (readcpVal b1 bs2)) (utf8Den (denote w2))) =
                  utf8Den (denote w)
                rw [hdw, hd1]
                exact (utf8Den_step b1 bs2 (denote w2) hb1 hlen hbs).symm
              · exact Option.noConfusion hE
            · -- malformed byte list
              exact Option.noConfusion hE
          · -- not an expandable object
            exact Option.noConfusion hE

/-- Witness for C5: unwrapping a one-element `ARRAY` chunk expands the
element, and re-wrapping restores an observationally equivalent list. -/
theorem C5_sum_roundtrip_witness :
    denote (wikrt_wrap_sum_v true (.pair (.int 7) .unitR)) =
      denote (.array .unitR [.int 7]) ∧
    (shallowSum (.array .unitR [.int 7]) = true →
      wikrt_wrap_sum_v true (.pair (.int 7) .unitR) = .array .unitR [.int 7]) :=
  C5_sum_roundtrip (.array .unitR [.int 7]) (.pair (.int 7) .unitR) true rfl

end Wikrt

namespace Wikrt

/-- Consing a finished object onto the ops list preserves the parse
frame whenever it does not fault. -/
theorem fini_opval_frame (e x b c0 : Wval) :
    frameO e (wikrt_fini_parse_opval_r (.pair x (.pair b (.pair c0 e)))) := by
  cases b <;> first | trivial | exact ⟨_, _, _, rfl⟩

/-- Flushing the text buffer preserves the parse frame. -/
theorem flush_frame (e : Wval) (s : PS) (hs : hasFrame e s.val) :
    frameR e (wikrt_flush_parse_text s) := by
  obtain ⟨a, b, c0, hv⟩ := hs
  unfold wikrt_flush_parse_text
  split
  · exact ⟨a, b, c0, hv⟩
  · split
    · exact ⟨a, b, c0, hv⟩
    · rw [hv]
      exact ⟨_, _, _, rfl⟩

/-- Writing one text character preserves the parse frame. -/
theorem write_char_frame (e : Wval) (s : PS) (cp : Nat) (hs : hasFrame e s.val) :
    frameR e (wikrt_parser_write_char s cp) := by
  unfold wikrt_parser_write_char
  dsimp only
  split
  · exact flush_frame e _ hs
  · exact hs

/-- Finishing an embedded text preserves the parse frame. -/
theorem fini_text_frame (rtc : Wval → Wval) (e : Wval) (s : PS)
    (hs : hasFrame e s.val) :
    frameR e (wikrt_fini_parse_text rtc s) := by
  have hf := flush_frame e s hs
  unfold wikrt_fini_parse_text
  cases hflush : wikrt_flush_parse_text s with
  | fault => trivial
  | err c s1 => rw [hflush] at hf; exact hf
  | ok s1 =>
      rw [hflush] at hf
      obtain ⟨a, b, c0, hv⟩ := hf
      dsimp only
      rw [hv]
      dsimp only
      split
      · exact ⟨_, _, _, rfl⟩
      · have hfo := fini_opval_frame e (rtc a) b c0
        cases hfi : wikrt_fini_parse_opval_r (.pair (rtc a) (.pair b (.pair c0 e))) with
        | none => trivial
        | some v3 => rw [hfi] at hfo; exact hfo

end Wikrt

namespace Wikrt

/-- Every outcome of the per-character state machine that returns (ok or
an error code) preserves the three-slot parse frame over `e`. -/
theorem step_char_frame (rtc : Wval → Wval) (e : Wval) (s : PS) (cp : Nat)
    (hs : hasFrame e s.val) :
    frameR e (wikrt_step_parse_char rtc s cp) := by
  obtain ⟨a, b, c0, hv⟩ := hs
  unfold wikrt_step_parse_char
  cases htyp : s.p.typ with
  | tok =>
      dsimp only
      split
      · split
        · exact ⟨a, b, c0, hv⟩
        · split
          · exact ⟨a, b, c0, hv⟩
          · rw [hv]
            exact ⟨_, _, _, rfl⟩
      · split
        · exact ⟨a, b, c0, hv⟩
        · split
          · exact ⟨a, b, c0, hv⟩
          · exact ⟨a, b, c0, hv⟩
  | txtLF =>
      dsimp only
      split
      · have hw := write_char_frame e s 10 ⟨a, b, c0, hv⟩
        cases hwc : wikrt_parser_write_char s 10 with
        | fault => trivial
        | err c1 s1 => rw [hwc] at hw; exact hw
        | ok s1 => rw [hwc] at hw; exact hw
      · split
        · have hw := fini_text_frame rtc e s ⟨a, b, c0, hv⟩
          cases hwc : wikrt_fini_parse_text rtc s with
          | fault => trivial
          | err c1 s1 => rw [hwc] at hw; exact hw
          | ok s1 => rw [hwc] at hw; exact hw
        · exact ⟨a, b, c0, hv⟩
  | txt =>
      dsimp only
      split
      · exact ⟨a, b, c0, hv⟩
      · split
        · exact ⟨a, b, c0, hv⟩
        · have hw := write_char_frame e s cp ⟨a, b, c0, hv⟩
          cases hwc : wikrt_parser_write_char s cp with
          | fault => trivial
          | err c1 s1 => rw [hwc] at hw; exact hw
          | ok s1 => rw [hwc] at hw; exact hw
  | op =>
      dsimp only
      split
      · exact ⟨a, b, c0, hv⟩
      · split
        · rw [hv]
          exact ⟨_, _, _, rfl⟩
        · split
          · split
            · exact ⟨a, b, c0, hv⟩
            · rw [hv]
              dsimp only [wikrt_reverse_opslist]
              cases hrev : revOps a .unitR with
              | none => trivial
              | some t =>
                  dsimp only [Option.map]
                  have hfo := fini_opval_frame e (.block BFlags.none t) b c0
                  cases hfi : wikrt_fini_parse_opval_r
                      (.pair (.block BFlags.none t) (.pair b (.pair c0 e))) with
                  | none => trivial
                  | some v2 => rw [hfi] at hfo; exact hfo
          · split
            · exact ⟨a, b, c0, hv⟩
            · split
              · rw [hv]
                exact ⟨_, _, _, rfl⟩
              · split
                · split
                  · exact ⟨a, b, c0, hv⟩
                  · rw [hv]
                    exact ⟨_, _, _, rfl⟩
                · exact ⟨a, b, c0, hv⟩

end Wikrt

namespace Wikrt

/-- Running the state machine over any chunk preserves the parse frame. -/
theorem step_parse_frame (rtc : Wval → Wval) (e : Wval) :
    ∀ (cps : List Nat) (s : PS), hasFrame e s.val →
      frameR e (wikrt_step_parse rtc s cps)
  | [], _, hs => hs
  | cp :: rest, s, hs => by
      have h1 := step_char_frame rtc e s cp hs
      unfold wikrt_step_parse
      cases hsc : wikrt_step_parse_char rtc s cp with
      | ok s1 =>
          rw [hsc] at h1
          exact step_parse_frame rtc e rest s1 h1
      | err c s1 => rw [hsc] at h1; exact h1
      | fault => trivial

/-- When the final validation (`wikrt_fini_parse`) returns an error code,
the register holds exactly the caller rest `e`: the ops list, the stack
cell, the consumed text, and the rejected block are all gone. -/
theorem fini_parse_err (e : Wval) (s : PS) (hs : hasFrame e s.val) :
    errAt e (wikrt_fini_parse s) := by
  obtain ⟨a, b, c0, hv⟩ := hs
  unfold wikrt_fini_parse
  rw [hv]
  dsimp only [wikrt_reverse_opslist]
  cases hrev : revOps a .unitR with
  | none => trivial
  | some t =>
      dsimp only [Option.map, vAssocl, vWswap, vDrop]
      split
      · trivial
      · rfl

/-- The swizzle-read-swizzle sequence on a framed register replaces the
text slot and keeps the frame. -/
theorem setText_eq (tv : List Nat → Wval) (a b c0 e : Wval) (rest : List Nat) :
    setTextSlot tv (.pair a (.pair b (.pair c0 e))) rest =
      some (.pair a (.pair b (.pair (tv rest) e))) := rfl

/-- Any error code returned out of the main loop leaves the register
holding exactly the caller rest `e`. -/
theorem parseLoop_err (rtc : Wval → Wval) (textVal : List Nat → Wval) (e : Wval) :
    ∀ (fuel : Nat) (s : PS) (cps : List Nat), hasFrame e s.val →
      errAt e (parseLoop rtc textVal fuel s cps)
  | 0, _, _, _ => trivial
  | fuel + 1, s, cps, hs => by
      unfold parseLoop
      split
      · exact fini_parse_err e s hs
      · obtain ⟨a, b, c0, hv⟩ := hs
        rw [hv, setText_eq]
        dsimp only
        have hf := step_parse_frame rtc e (cps.take WIKRT_PARSE_READSZ)
          { s with val := .pair a (.pair b (.pair (textVal (cps.drop WIKRT_PARSE_READSZ)) e)) }
          ⟨a, b, textVal (cps.drop WIKRT_PARSE_READSZ), rfl⟩
        cases hsp : wikrt_step_parse rtc
            { s with val := .pair a (.pair b (.pair (textVal (cps.drop WIKRT_PARSE_READSZ)) e)) }
            (cps.take WIKRT_PARSE_READSZ) with
        | fault => trivial
        | err c s1 =>
            rw [hsp] at hf
            obtain ⟨a1, b1, c1, hv1⟩ := hf
            dsimp only
            rw [hv1]
            rfl
        | ok s1 =>
            rw [hsp] at hf
            exact parseLoop_err rtc textVal e fuel s1 (cps.drop WIKRT_PARSE_READSZ) hf

/-- C2: parser atomicity on failure.  For every context whose value
register holds `(text * e)` and every run of `wikrt_text_to_block` that
returns an error code (parse error or memory exhaustion at any point,
for every reserve oracle, every behaviour of the missing
`wikrt_reverse_text_chunks`, and every register representation of the
remaining text), the post-call value register is exactly `e`: only the
text argument has been consumed.  Runs that trip an assertion abort and
never return are outside the claim. -/
theorem C2_parser_atomicity (rtc : Wval → Wval) (textVal : List Nat → Wval)
    (g : List Bool) (cps : List Nat) (e : Wval) (c : Ecode) (s1 : PS)
    (h : wikrt_text_to_block rtc textVal g cps e = .err c s1) :
    s1.val = e := by
  unfold wikrt_text_to_block at h
  rcases hr : reserve g with ⟨rb, g1⟩
  rw [hr] at h
  cases rb with
  | false =>
      dsimp only [vDrop] at h
      injection h with h1 h2
      rw [← h2]
  | true =>
      have hl := parseLoop_err rtc textVal e (cps.length + 1)
        { val := vIntro .unitR (vIntro .unit (.pair (textVal cps) e)),
          p := ⟨.op, 0, [], 0⟩, g := g1 } cps ⟨_, _, _, rfl⟩
      dsimp only at h
      rw [h] at hl
      exact hl

/-- Witness for C2: parsing the single right-brace codepoint (an invalid
operator) returns a type error and the register holds exactly the
caller rest. -/
theorem C2_parser_atomicity_witness :
    ({ val := Wval.int 42, p := ⟨.op, 0, [], 0⟩, g := [] } : PS).val = Wval.int 42 :=
  C2_parser_atomicity (fun v => v) (fun _ => .unitR) [] [125] (.int 42) .etype
    { val := Wval.int 42, p := ⟨.op, 0, [], 0⟩, g := [] } rfl

end Wikrt
